import Mathlib

/-!
Verification of the "Minimal Tab Sort" browser extension.

The repository holds two variants of the same extension:
`src/background.js` (namespace `Background` below) and
`src/unnamed/part_000` (namespace `Part000` below).  Both decorate each
tab of a scope with a bucket key and a sort key derived from the tab's
URL, sort the decorated list with JavaScript's stable `Array.prototype.sort`
under a `localeCompare`-based comparator, and issue move/group/pin
requests against the browser's tab-management surface.

Platform functions used by the source (`new URL`, `encodeURIComponent`,
`String.prototype.localeCompare`, `String.prototype.startsWith`,
`String.prototype.toLowerCase`, array `sort`/`map`, and the `chrome.*`
tab-management API) are modelled here.  Restrictions of the models are
documented on each definition.
-/

/-- Chars allowed in a URL scheme after the leading ASCII letter
(WHATWG URL: ASCII alphanumeric, `+`, `-`, `.`). -/
def isSchemeChar (c : Char) : Bool :=
  c.isAlphanum || c = '+' || c = '-' || c = '.'

/-- Model of `String.prototype.toLowerCase` (ASCII case folding; every
string this program lowercases is ASCII). -/
def lowerStr (s : String) : String :=
  ⟨s.data.map Char.toLower⟩

/-- `startsWithL s pat`: does the char list `s` start with `pat`? -/
def startsWithL : List Char → List Char → Bool
  | _, [] => true
  | [], _ :: _ => false
  | c :: cs, p :: ps => c = p && startsWithL cs ps

/-- Model of `String.prototype.startsWith`. -/
def jsStartsWith (s pat : String) : Bool :=
  startsWithL s.data pat.data

/-- The fields of a JavaScript `URL` object that the program reads:
`protocol` (scheme with trailing colon), `host` (hostname plus any
explicit port), `pathname`, `search` (with leading `?` when non-empty)
and `hash` (with leading `#` when non-empty). -/
structure URLRec where
  protocol : String
  host : String
  pathname : String
  search : String
  hash : String
deriving Repr, DecidableEq

/-- The WHATWG special schemes relevant here (`file` is left out of the
model; no address in this development uses it). -/
def isSpecialScheme (s : List Char) : Bool :=
  s = "http".data || s = "https".data || s = "ws".data ||
    s = "wss".data || s = "ftp".data

/-- Code points that make host parsing fail.  Restriction of the model:
a bracket always fails (the real parser accepts a well-formed IPv6
literal), and `%` is kept verbatim instead of being percent-decoded. -/
def isForbiddenHostChar (c : Char) : Bool :=
  c = Char.ofNat 0 || c = Char.ofNat 9 || c = Char.ofNat 10 ||
  c = Char.ofNat 13 || c = ' ' || c = '#' || c = '/' || c = '<' ||
  c = '>' || c = '?' || c = '@' || c = '\\' || c = '^' || c = '|' ||
  c = '[' || c = ']'

/-- The part of an authority after the last `@` (userinfo stripped). -/
def afterLastAt (cs : List Char) : List Char :=
  (cs.reverse.takeWhile (fun c => c ≠ '@')).reverse

/-- Parse the host (and optional port) out of an authority substring.
`none` models a `TypeError` from the `URL` constructor.  Restriction:
default ports are not elided and IDNA/percent-decoding is not applied. -/
def parseHostChars (special : Bool) (auth : List Char) : Option (List Char) :=
  let hostPort := afterLastAt auth
  let h := hostPort.takeWhile (fun c => c ≠ ':')
  let portDigits := (hostPort.dropWhile (fun c => c ≠ ':')).drop 1
  if h.any isForbiddenHostChar then none
  else if !portDigits.all Char.isDigit then none
  else if special && h.isEmpty then none
  else
    let hh := if special then h.map Char.toLower else h
    some (if portDigits.isEmpty then hh else hh ++ ':' :: portDigits)

/-- The `search` component from the remainder `r3` (which begins at `?`,
at `#`, or is empty): leading `?` kept, but an empty query gives `""`. -/
def searchOf (r : List Char) : String :=
  match r with
  | '?' :: rest =>
    let q := rest.takeWhile (fun c => c ≠ '#')
    if q.isEmpty then "" else ⟨'?' :: q⟩
  | _ => ""

/-- The `hash` component from the remainder `r3`: leading `#` kept, but
an empty fragment gives `""`. -/
def hashOf (r : List Char) : String :=
  match r.dropWhile (fun c => c ≠ '#') with
  | '#' :: rest => if rest.isEmpty then "" else ⟨'#' :: rest⟩
  | _ => ""

/-- Characters that end the authority substring. -/
def endsAuthority (special : Bool) (c : Char) : Bool :=
  c = '/' || c = '?' || c = '#' || (special && c = '\\')

/-- Parse scheme-rest `r1` as authority-plus-path. -/
def parseWithAuthority (scheme : List Char) (r1 : List Char) : Option URLRec :=
  let special := isSpecialScheme scheme
  let auth := r1.takeWhile (fun c => !endsAuthority special c)
  let r2 := r1.dropWhile (fun c => !endsAuthority special c)
  match parseHostChars special auth with
  | none => none
  | some h =>
    let path := r2.takeWhile (fun c => c ≠ '?' && c ≠ '#')
    let r3 := r2.dropWhile (fun c => c ≠ '?' && c ≠ '#')
    some { protocol := ⟨scheme ++ [':']⟩, host := ⟨h⟩,
           pathname := if special && path.isEmpty then "/" else ⟨path⟩,
           search := searchOf r3, hash := hashOf r3 }

/-- Parse what follows `scheme:`.  A special scheme ignores any run of
slashes and always parses an authority; a non-special scheme parses an
authority only after exactly `//`, and otherwise has an opaque path. -/
def parseAfterScheme (scheme rest : List Char) : Option URLRec :=
  if isSpecialScheme scheme then
    parseWithAuthority scheme (rest.dropWhile (fun c => c = '/' || c = '\\'))
  else if startsWithL rest ['/', '/'] then
    parseWithAuthority scheme (rest.drop 2)
  else
    let path := rest.takeWhile (fun c => c ≠ '?' && c ≠ '#')
    let r3 := rest.dropWhile (fun c => c ≠ '?' && c ≠ '#')
    some { protocol := ⟨scheme ++ [':']⟩, host := "",
           pathname := ⟨path⟩, search := searchOf r3, hash := hashOf r3 }

/-- Split a leading `scheme:` off a char list (first char an ASCII
letter, then scheme chars, then a colon); the scheme is lowercased. -/
def splitSchemeChars (cs : List Char) : Option (List Char × List Char) :=
  match cs with
  | [] => none
  | c :: rest =>
    if c.isAlpha then
      let nm := rest.takeWhile isSchemeChar
      match rest.dropWhile isSchemeChar with
      | ':' :: r => some ((c :: nm).map Char.toLower, r)
      | _ => none
    else none

/-- Model of the WHATWG URL parser as invoked by `new URL(s)` (absolute
URL, no base).  `none` models a thrown `TypeError`.  Restrictions: no
stripping of leading/trailing C0-control/space and of tab/newline, no
dot-segment or backslash path normalization, no percent-encoding
normalization, no IPv6/IDNA handling, `file` treated as non-special. -/
def parseURL (s : String) : Option URLRec :=
  match splitSchemeChars s.data with
  | none => none
  | some (scheme, rest) => parseAfterScheme scheme rest

/-- Uppercase hex digit for a value below 16. -/
def hexDigitChar (n : Nat) : Char :=
  if n < 10 then Char.ofNat (48 + n) else Char.ofNat (55 + n)

/-- Bytes `encodeURIComponent` leaves untouched: ASCII alphanumerics and
`- _ . ! ~ * ' ( )`. -/
def isUnreservedByte (b : Nat) : Bool :=
  (65 ≤ b && b ≤ 90) || (97 ≤ b && b ≤ 122) || (48 ≤ b && b ≤ 57) ||
  b = 45 || b = 95 || b = 46 || b = 33 || b = 126 || b = 42 ||
  b = 39 || b = 40 || b = 41

/-- One byte of `encodeURIComponent` output. -/
def encByte (b : Nat) : List Char :=
  if isUnreservedByte b then [Char.ofNat b]
  else ['%', hexDigitChar (b / 16), hexDigitChar (b % 16)]

/-- UTF-8 bytes of a character (the masks are redundant for every valid
`Char` and only keep the arithmetic total). -/
def utf8BytesOfChar (c : Char) : List Nat :=
  if c.toNat < 128 then [c.toNat]
  else if c.toNat < 2048 then [192 + (c.toNat / 64) % 32, 128 + c.toNat % 64]
  else if c.toNat < 65536 then
    [224 + (c.toNat / 4096) % 16, 128 + (c.toNat / 64) % 64, 128 + c.toNat % 64]
  else
    [240 + (c.toNat / 262144) % 8, 128 + (c.toNat / 4096) % 64,
      128 + (c.toNat / 64) % 64, 128 + c.toNat % 64]

/-- Model of JavaScript's `encodeURIComponent`. -/
def encodeURIComponent (s : String) : String :=
  ⟨s.data.flatMap (fun c => (utf8BytesOfChar c).flatMap encByte)⟩

/-- Boolean code-point lexicographic order on char lists.  This is the
model of the collation behind `String.prototype.localeCompare`: the
strings this program compares under it (lower-cased hosts, paths,
percent-encoded placeholders, ASCII group titles) are ordered the same
way by the default-locale Unicode collation and by code points. -/
def lexLtB : List Char → List Char → Bool
  | _, [] => false
  | [], _ :: _ => true
  | a :: as, b :: bs => if a < b then true else if b < a then false else lexLtB as bs

/-- Model of `a.localeCompare(b)` (sign-normalized to -1/0/1, as the
sort comparators here only inspect the sign). -/
def localeCompare (a b : String) : Int :=
  if lexLtB a.data b.data then -1 else if lexLtB b.data a.data then 1 else 0

/-- The collated strict order on strings, as a proposition (spec side:
"Unicode-collated ascending"). -/
def collLt (a b : String) : Prop :=
  lexLtB a.data b.data = true

/-- The collated non-strict order on strings. -/
def collLe (a b : String) : Prop :=
  lexLtB b.data a.data = false

/-- A tab as the program reads it from `chrome.tabs.query`. -/
structure Tab where
  id : Nat
  url : String
  pendingUrl : Option String
  index : Nat
  pinned : Bool
  groupId : Int
deriving Repr, DecidableEq

/-- `tab.pendingUrl || tab.url`: JavaScript falls back to `tab.url` when
`pendingUrl` is absent or the empty string (both are falsy). -/
def rawAddress (t : Tab) : String :=
  match t.pendingUrl with
  | some p => if p = "" then t.url else p
  | none => t.url

/-- The canonical `http://invalid/...` placeholder record; `parseURL`
provably returns exactly this value on the placeholder string, so the
`getD` fallbacks below never fire. -/
def invalidPlaceholder (raw : String) : URLRec :=
  { protocol := "http:", host := "invalid",
    pathname := "/" ++ encodeURIComponent raw, search := "", hash := "" }

/-- The canonical `http://internal/...` placeholder record. -/
def internalPlaceholder (raw : String) : URLRec :=
  { protocol := "http:", host := "internal",
    pathname := "/" ++ encodeURIComponent raw, search := "", hash := "" }

/-- A sort decoration.  `background.js` calls the two keys `hostname`
and `key`, `part_000` calls them `hostKey` and `sortKey`; the record
additionally carries the whole tab (the source keeps only `tab.id`,
which is `tab.id` here as well) so that reordering a scope can be
expressed. -/
structure Decorated where
  tab : Tab
  originalIndex : Nat
  hostKey : String
  sortKey : String
deriving Repr, DecidableEq

/-- The comparator passed to `decorated.sort` in both variants:
bucket key, then sort key (both by `localeCompare`), then original
index difference. -/
def cmpDecorated (a b : Decorated) : Int :=
  let h := localeCompare a.hostKey b.hostKey
  if h ≠ 0 then h
  else
    let k := localeCompare a.sortKey b.sortKey
    if k ≠ 0 then k
    else (a.originalIndex : Int) - (b.originalIndex : Int)

/-- Boolean `≤` induced by the comparator. -/
def decLe (a b : Decorated) : Bool :=
  cmpDecorated a b ≤ 0

/-- The comparator's induced `≤`, as a decidable relation. -/
def decLeRel (a b : Decorated) : Prop :=
  decLe a b = true

/-- Decidability of `decLeRel` (needed to run the sort). -/
instance decLeRelDec : DecidableRel decLeRel :=
  fun a b => instDecidableEqBool (decLe a b) true

/-- Model of `decorated.sort(comparator)`: `Array.prototype.sort` is
stable and, under a consistent comparator, sorts, which determines its
output uniquely; a stable structural sort under the induced total
preorder `decLeRel` is exactly that. -/
def sortDecorated (l : List Decorated) : List Decorated :=
  List.insertionSort decLeRel l

/-- `url.host.replace(WWW_RE, "")` with `WWW_RE = /^www\./i`: strip a
single leading `www.` case-insensitively. -/
def stripWww (h : String) : String :=
  if lowerStr ⟨h.data.take 4⟩ = "www." then ⟨h.data.drop 4⟩ else h

/-- `url.host.replace(WWW_RE, "").toLowerCase()`, shared by both
variants for http(s) hosts. -/
def cleanHostOf (h : String) : String :=
  lowerStr (stripWww h)

namespace Background

/-- `resolveTabUrl` of `src/background.js`: parse the raw address, and
on a `TypeError` substitute `new URL("http://invalid/" +
encodeURIComponent(raw))`. -/
def resolveTabUrl (t : Tab) : URLRec :=
  let raw := rawAddress t
  match parseURL raw with
  | some u => u
  | none =>
    (parseURL ("http://invalid/" ++ encodeURIComponent raw)).getD
      (invalidPlaceholder raw)

/-- The `cleanHost` (bucket key) of a tab in `background.js`. -/
def bucketKey (t : Tab) : String :=
  cleanHostOf (resolveTabUrl t).host

/-- The `key` (sort key) of a tab in `background.js`:
`cleanHost + url.pathname + url.search + url.hash`. -/
def sortKeyOf (t : Tab) : String :=
  bucketKey t ++ (resolveTabUrl t).pathname ++ (resolveTabUrl t).search
    ++ (resolveTabUrl t).hash

/-- `tabs.map((tab, originalIndex) => ...)` of `sortTabsScope`. -/
def decorateFrom : Nat → List Tab → List Decorated
  | _, [] => []
  | i, t :: ts =>
    { tab := t, originalIndex := i, hostKey := bucketKey t,
      sortKey := sortKeyOf t } :: decorateFrom (i + 1) ts

/-- The decorated list of one scope. -/
def decorate (tabs : List Tab) : List Decorated :=
  decorateFrom 0 tabs

/-- `sortedIds`: the tab identities of the scope in sorted order — the
argument of the `chrome.tabs.move` request `sortTabsScope` issues. -/
def sortedIds (tabs : List Tab) : List Nat :=
  (sortDecorated (decorate tabs)).map (fun d => d.tab.id)

/-- The tabs of the scope arranged in the order `sortTabsScope` puts
them in. -/
def sortedTabs (tabs : List Tab) : List Tab :=
  (sortDecorated (decorate tabs)).map (fun d => d.tab)

end Background

namespace Part000

/-- `resolveTabUrl` of `src/unnamed/part_000`.  A `chrome-extension://`
address is parsed *outside* any try/catch, so its parse failure is a
thrown `TypeError`, modelled by `none`; internal-page addresses get the
`internal` placeholder; anything else is tried and falls back to the
`invalid` placeholder. -/
def resolveTabUrl (t : Tab) : Option URLRec :=
  let raw := rawAddress t
  if jsStartsWith raw "chrome-extension://" then parseURL raw
  else if jsStartsWith raw "chrome://" || jsStartsWith raw "about:" ||
      jsStartsWith raw "edge://" || jsStartsWith raw "brave://" then
    some ((parseURL ("http://internal/" ++ encodeURIComponent raw)).getD
      (internalPlaceholder raw))
  else
    match parseURL raw with
    | some u => some u
    | none =>
      some ((parseURL ("http://invalid/" ++ encodeURIComponent raw)).getD
        (invalidPlaceholder raw))

/-- The `hostKey` computed in `sortTabsScope` of `part_000`:
`ext:` bucket for extension pages, cleaned host for http(s),
`"internal"` for everything else. -/
def hostKeyOf (u : URLRec) : String :=
  if u.protocol = "chrome-extension:" then "ext:" ++ u.host
  else if u.protocol = "http:" || u.protocol = "https:" then cleanHostOf u.host
  else "internal"

/-- The bucket key of a tab (`none` models the thrown `TypeError`). -/
def bucketKey (t : Tab) : Option String :=
  (resolveTabUrl t).map hostKeyOf

/-- The `sortKey`: `hostKey + url.pathname + url.search + url.hash`. -/
def sortKeyOf (u : URLRec) : String :=
  hostKeyOf u ++ u.pathname ++ u.search ++ u.hash

/-- The sort key of a tab (`none` models the thrown `TypeError`). -/
def sortKey (t : Tab) : Option String :=
  (resolveTabUrl t).map sortKeyOf

/-- `tabs.map((tab, originalIndex) => ...)` of `sortTabsScope`; `none`
when decorating any tab throws, which aborts the whole scope. -/
def decorateFrom : Nat → List Tab → Option (List Decorated)
  | _, [] => some []
  | i, t :: ts =>
    match resolveTabUrl t with
    | none => none
    | some u =>
      match decorateFrom (i + 1) ts with
      | none => none
      | some ds =>
        some ({ tab := t, originalIndex := i, hostKey := hostKeyOf u,
                sortKey := sortKeyOf u } :: ds)

/-- The decorated list of one scope. -/
def decorate (tabs : List Tab) : Option (List Decorated) :=
  decorateFrom 0 tabs

/-- The tab identities in the `chrome.tabs.move` request of
`sortTabsScope` (`none`: the scope sort aborted on a thrown error). -/
def sortedIds (tabs : List Tab) : Option (List Nat) :=
  (decorate tabs).map (fun ds => (sortDecorated ds).map (fun d => d.tab.id))

/-- The tabs of the scope in sorted order. -/
def sortedTabs (tabs : List Tab) : Option (List Tab) :=
  (decorate tabs).map (fun ds => (sortDecorated ds).map (fun d => d.tab))

end Part000

/-- A tab group as read from `chrome.tabGroups.query` (`title` may be
absent). -/
structure TabGroup where
  id : Int
  title : Option String
deriving Repr, DecidableEq

/-- The authoritative state of the focused window held by the host
environment: its tabs in window order, and its tab groups. -/
structure WindowState where
  tabs : List Tab
  groups : List TabGroup
deriving Repr, DecidableEq

/-- Attach current positions: tabs returned by a query carry their live
`index`, which is their position in the window order. -/
def withIndicesFrom : Nat → List Tab → List Tab
  | _, [] => []
  | i, t :: ts => { t with index := i } :: withIndicesFrom (i + 1) ts

/-- The window's tabs with their live indices, as queries return them. -/
def withIndices (ts : List Tab) : List Tab :=
  withIndicesFrom 0 ts

/-- Model of `chrome.tabs.move(ids, { index })`, per the host contract
(spec section 6): relocate the named tabs, as a contiguous block in the
given order, to begin at the given position. -/
def moveTabs (ts : List Tab) (ids : List Nat) (idx : Nat) : List Tab :=
  let moved := ids.filterMap (fun i => ts.find? (fun t => t.id = i))
  let rest := ts.filter (fun t => !ids.contains t.id)
  rest.take idx ++ moved ++ rest.drop idx

/-- Model of `chrome.tabs.group({ groupId, tabIds })`: assign the named
tabs to the group. -/
def setGroup (ts : List Tab) (gid : Int) (ids : List Nat) : List Tab :=
  ts.map (fun t => if ids.contains t.id then { t with groupId := gid } else t)

/-- Model of `chrome.tabs.update(tabId, { pinned })`. -/
def setPinned (ts : List Tab) (tabId : Nat) (v : Bool) : List Tab :=
  ts.map (fun t => if t.id = tabId then { t with pinned := v } else t)

/-- Model of `chrome.tabGroups.move(gid, { index })`: relocate the
group's member tabs as a block to the given position. -/
def groupMove (ts : List Tab) (gid : Int) (idx : Nat) : List Tab :=
  moveTabs ts ((ts.filter (fun t => t.groupId == gid)).map (fun t => t.id)) idx

/-- `minIndex(tabs)` of `background.js`: running minimum starting from
the first tab's index (callers guarantee a non-empty list; `0` stands in
for the out-of-bounds read on `[]`). -/
def minIndexAux : Nat → List Tab → Nat
  | m, [] => m
  | m, t :: ts => minIndexAux (if t.index < m then t.index else m) ts

/-- `minIndex` entry point. -/
def minIndex : List Tab → Nat
  | [] => 0
  | t :: ts => minIndexAux t.index ts

namespace Background

/-- `sortTabsScope` of `background.js` as a transformer of the window's
tab order: no-op on an empty scope, else move the sorted ids to
`startIndex` and, for a real group, re-assert membership. -/
def sortTabsScope (w : List Tab) (tabs : List Tab) (startIndex : Nat)
    (groupId : Int) : List Tab :=
  if tabs.isEmpty then w
  else
    let ids := sortedIds tabs
    let w1 := moveTabs w ids startIndex
    if groupId > -1 then setGroup w1 groupId ids else w1

/-- The `Promise.all(pinnedTabs.map(t => chrome.tabs.update(t.id,
{ pinned: true })))` step: the per-tab updates are independent and
commute, so they are applied in sequence. -/
def pinAll (ts : List Tab) (ids : List Nat) : List Tab :=
  ids.foldl (fun acc i => setPinned acc i true) ts

/-- `(b.title || "")`. -/
def titleOrEmpty (t : Option String) : String :=
  t.getD ""

/-- The group comparator `(a, b) => (b.title || "").localeCompare(a.title
|| "")`, as the induced boolean `≤`. -/
def groupLe (a b : TabGroup) : Bool :=
  localeCompare (titleOrEmpty b.title) (titleOrEmpty a.title) ≤ 0

/-- The group comparator's induced `≤`, as a decidable relation. -/
def groupLeRel (a b : TabGroup) : Prop :=
  groupLe a b = true

/-- Decidability of `groupLeRel`. -/
instance groupLeRelDec : DecidableRel groupLeRel :=
  fun a b => instDecidableEqBool (groupLe a b) true

/-- `tabGroups.sort(...)`: title-descending order of the groups, the
order in which the orchestrator processes them (stable sort model, as
for the scope sort). -/
def sortGroups (gs : List TabGroup) : List TabGroup :=
  List.insertionSort groupLeRel gs

/-- One iteration of the `for (const group of tabGroups)` loop, on the
state (window tab order, `nextPosition`). -/
def groupStep (acc : List Tab × Nat) (g : TabGroup) : List Tab × Nat :=
  let ts := groupMove acc.1 g.id acc.2
  let tabs := (withIndices ts).filter (fun t => t.groupId == g.id)
  if tabs.isEmpty then (ts, acc.2)
  else (sortTabsScope ts tabs (minIndex tabs) g.id, acc.2 + tabs.length)

/-- Stages 2 and 3 of `sortAllTabs`: iterate the groups in sorted order
from the running cursor, then sort the ungrouped, unpinned scope. -/
def sortAllTabsRest (groups : List TabGroup) (acc : List Tab × Nat) : List Tab :=
  let ts2 := ((sortGroups groups).foldl groupStep acc).1
  let ungroupedTabs :=
    (withIndices ts2).filter (fun t => !t.pinned && t.groupId == -1)
  if ungroupedTabs.isEmpty then ts2
  else sortTabsScope ts2 ungroupedTabs (minIndex ungroupedTabs) (-1)

/-- `sortAllTabs` of `background.js` against the modelled host state.
Returns the final window state and the list of `(tabId, pinned)` update
requests issued (the explicit re-pin step). -/
def sortAllTabs (w : WindowState) : WindowState × List (Nat × Bool) :=
  let pinnedTabs := (withIndices w.tabs).filter (fun t => t.pinned)
  let nextPosition := pinnedTabs.length
  let step1 : List Tab × List (Nat × Bool) :=
    match pinnedTabs with
    | [] => (w.tabs, [])
    | t0 :: _ =>
      (pinAll (sortTabsScope w.tabs pinnedTabs 0 t0.groupId)
        (pinnedTabs.map (fun t => t.id)),
       pinnedTabs.map (fun t => (t.id, true)))
  ({ tabs := sortAllTabsRest w.groups (step1.1, nextPosition),
     groups := w.groups }, step1.2)

end Background

/-- The ordering the spec prescribes for one scope: bucket key ascending
(collated), then sort key ascending (collated), then original index
ascending as the final tie-break. -/
def specLe (a b : Decorated) : Prop :=
  collLt a.hostKey b.hostKey ∨
    (a.hostKey = b.hostKey ∧
      (collLt a.sortKey b.sortKey ∨
        (a.sortKey = b.sortKey ∧ a.originalIndex ≤ b.originalIndex)))

/-- Decidability of `specLe`. -/
instance specLeDec : DecidableRel specLe :=
  fun a b => by unfold specLe collLt; infer_instance

/-- `specLe` restricted to the keys (what survives reindexing). -/
def keyLe (a b : Decorated) : Prop :=
  collLt a.hostKey b.hostKey ∨
    (a.hostKey = b.hostKey ∧
      (collLt a.sortKey b.sortKey ∨ a.sortKey = b.sortKey))

/-- Renumber the `originalIndex` fields consecutively from `i`: the
decoration a second sorting pass computes on an already-sorted scope. -/
def reindexFrom : Nat → List Decorated → List Decorated
  | _, [] => []
  | i, d :: ds => { d with originalIndex := i } :: reindexFrom (i + 1) ds

/-- The tab identities of a window's tab list. -/
def idsOf (ts : List Tab) : List Nat :=
  ts.map (fun t => t.id)

/-- "Some tab with this identity is pinned" in a window tab list. -/
def pinnedAt (ts : List Tab) (tabId : Nat) : Prop :=
  ∃ t ∈ ts, t.id = tabId ∧ t.pinned = true

/-- An unpinned, ungrouped tab fixture on the given address. -/
def mkTab (i : Nat) (u : String) : Tab :=
  { id := i, url := u, pendingUrl := none, index := 0, pinned := false,
    groupId := -1 }

/-- Fixture: a tab on `chrome://settings`. -/
def tabChromeSettings : Tab := mkTab 1 "chrome://settings"

/-- Fixture: a tab on `about:blank`. -/
def tabAboutBlank : Tab := mkTab 2 "about:blank"

/-- Fixture: a third internal-page tab whose placeholder sort key falls
between those of the other two fixtures. -/
def tabAboutConfig : Tab := mkTab 3 "about:config"

/-- Fixture: a well-formed extension page. -/
def tabExtPopup : Tab := mkTab 4 "chrome-extension://abcdefghijklmnop/popup.html"

/-- Fixture: a malformed address carrying the extension-scheme prefix
(the bracket makes host parsing fail, so `new URL` throws on it). -/
def tabExtMalformed : Tab := mkTab 5 "chrome-extension://["

/-- Fixture: a malformed address carrying the browser-chrome prefix. -/
def tabChromeBracket : Tab := mkTab 6 "chrome://["

/-- Fixture scope of the three-address scenario of the spec. -/
def scenarioHttpTabs : List Tab :=
  [mkTab 3 "https://other.com/x", mkTab 2 "https://example.com/b",
   mkTab 1 "https://www.example.com/a"]

/-- Fixture window: one tab in a "Shopping" group, one in a "Work"
group, the groups listed in that order. -/
def wGroups : WindowState :=
  { tabs := [
      { id := 1, url := "https://a.com/", pendingUrl := none, index := 0,
        pinned := false, groupId := 1 },
      { id := 2, url := "https://b.com/", pendingUrl := none, index := 1,
        pinned := false, groupId := 2 }],
    groups := [{ id := 1, title := some "Shopping" },
               { id := 2, title := some "Work" }] }

/-- Fixture window: two pinned tabs after an unpinned one. -/
def wPinned : WindowState :=
  { tabs := [
      { id := 1, url := "https://z.com/", pendingUrl := none, index := 0,
        pinned := false, groupId := -1 },
      { id := 2, url := "https://a.com/", pendingUrl := none, index := 1,
        pinned := true, groupId := -1 },
      { id := 3, url := "about:blank", pendingUrl := none, index := 2,
        pinned := true, groupId := -1 }],
    groups := [] }

/-- Fixture: an address that fails URL structural parsing. -/
def tabPlain : Tab := mkTab 7 "not a url"

/-- Fixture: a plain https address. -/
def tabHttpsB : Tab := mkTab 8 "https://example.com/b"

/-- The decoration `part_000` computes for `tabChromeSettings` at
input position 0. -/
def decSettings : Decorated :=
  { tab := tabChromeSettings, originalIndex := 0, hostKey := "internal",
    sortKey := "internal/chrome%3A%2F%2Fsettings" }

/-- The decoration `part_000` computes for `tabAboutBlank` at input
position 1. -/
def decBlank : Decorated :=
  { tab := tabAboutBlank, originalIndex := 1, hostKey := "internal",
    sortKey := "internal/about%3Ablank" }

/-- The decoration `part_000` computes for `tabAboutConfig` at input
position 2. -/
def decConfig : Decorated :=
  { tab := tabAboutConfig, originalIndex := 2, hostKey := "internal",
    sortKey := "internal/about%3Aconfig" }

/-- The `(identity, pinned)` projection of a window tab list. -/
def idPinPairs (ts : List Tab) : List (Nat × Bool) :=
  ts.map (fun t => (t.id, t.pinned))

/-! ### Order properties of the collation model -/

theorem lexLtB_irrefl : ∀ as : List Char, lexLtB as as = false
  | [] => rfl
  | a :: as => by simp [lexLtB, lt_irrefl, lexLtB_irrefl as]

theorem lexLtB_asymm : ∀ as bs : List Char,
    lexLtB as bs = true → lexLtB bs as = false
  | _ :: _, [], h => by simp [lexLtB] at h
  | [], [], h => by simp [lexLtB] at h
  | [], _ :: _, _ => rfl
  | a :: as, b :: bs, h => by
    simp only [lexLtB] at h ⊢
    rcases lt_trichotomy a b with hab | hab | hab
    · simp [hab, not_lt_of_lt hab, lt_asymm hab]
    · subst hab
      simp only [lt_irrefl, if_false] at h ⊢
      exact lexLtB_asymm as bs h
    · simp [hab, not_lt_of_lt hab, lt_asymm hab] at h

theorem lexLtB_trans : ∀ as bs cs : List Char,
    lexLtB as bs = true → lexLtB bs cs = true → lexLtB as cs = true
  | _, _, [], _, h2 => by simp [lexLtB] at h2
  | _, [], _ :: _, h1, _ => by simp [lexLtB] at h1
  | [], _ :: _, _ :: _, _, _ => rfl
  | a :: as, b :: bs, c :: cs, h1, h2 => by
    simp only [lexLtB] at h1 h2 ⊢
    rcases lt_trichotomy a b with hab | hab | hab
    · rcases lt_trichotomy b c with hbc | hbc | hbc
      · simp [lt_trans hab hbc]
      · subst hbc; simp [hab]
      · simp [hbc, not_lt_of_lt hbc, lt_asymm hbc] at h2
    · subst hab
      rcases lt_trichotomy a c with hac | hac | hac
      · simp [hac]
      · subst hac
        simp only [lt_irrefl, if_false] at h1 h2 ⊢
        exact lexLtB_trans as bs cs h1 h2
      · simp [hac, not_lt_of_lt hac, lt_asymm hac] at h2
    · simp [hab, not_lt_of_lt hab, lt_asymm hab] at h1

theorem lexLtB_antisymm : ∀ as bs : List Char,
    lexLtB as bs = false → lexLtB bs as = false → as = bs
  | [], [], _, _ => rfl
  | [], _ :: _, h1, _ => by simp [lexLtB] at h1
  | _ :: _, [], _, h2 => by simp [lexLtB] at h2
  | a :: as, b :: bs, h1, h2 => by
    simp only [lexLtB] at h1 h2
    rcases lt_trichotomy a b with hab | hab | hab
    · simp [hab] at h1
    · subst hab
      simp only [lt_irrefl, if_false] at h1 h2
      rw [lexLtB_antisymm as bs h1 h2]
    · simp [hab] at h2

theorem stringDataInj {a b : String} (h : a.data = b.data) : a = b := by
  cases a; cases b; exact congrArg String.mk h

theorem localeCompare_cases (a b : String) :
    localeCompare a b = -1 ∨ localeCompare a b = 0 ∨ localeCompare a b = 1 := by
  unfold localeCompare
  split
  · exact Or.inl rfl
  · split
    · exact Or.inr (Or.inr rfl)
    · exact Or.inr (Or.inl rfl)

theorem localeCompare_eq_zero_iff (a b : String) :
    localeCompare a b = 0 ↔ a = b := by
  unfold localeCompare
  constructor
  · intro h
    split at h
    · simp at h
    · split at h
      · simp at h
      · exact stringDataInj (lexLtB_antisymm _ _
          (by simp_all) (by simp_all))
  · intro h
    subst h
    simp [lexLtB_irrefl]

theorem localeCompare_neg_iff (a b : String) :
    localeCompare a b < 0 ↔ collLt a b := by
  unfold localeCompare collLt
  split
  · simp [*]
  · split <;> simp [*]

theorem localeCompare_le_zero_iff (a b : String) :
    localeCompare a b ≤ 0 ↔ collLt a b ∨ a = b := by
  rcases localeCompare_cases a b with h | h | h
  · simp only [h]
    norm_num
    exact Or.inl ((localeCompare_neg_iff a b).1 (by rw [h]; norm_num))
  · simp only [h]
    norm_num
    exact Or.inr ((localeCompare_eq_zero_iff a b).1 h)
  · simp only [h]
    norm_num
    constructor
    · intro hc
      have := (localeCompare_neg_iff a b).2 hc
      omega
    · intro he
      have := (localeCompare_eq_zero_iff a b).2 he
      omega

theorem collLt_irrefl (a : String) : ¬ collLt a a := by
  simp [collLt, lexLtB_irrefl]

theorem collLt_asymm {a b : String} (h : collLt a b) : ¬ collLt b a := by
  unfold collLt at h ⊢
  simp [lexLtB_asymm _ _ h]

theorem collLt_trans {a b c : String} (h1 : collLt a b) (h2 : collLt b c) :
    collLt a c :=
  lexLtB_trans _ _ _ h1 h2

theorem localeCompare_neg (a b : String) (h : localeCompare a b = -1) :
    collLt a b :=
  (localeCompare_neg_iff a b).1 (by rw [h]; norm_num)

theorem localeCompare_pos (a b : String) (h : localeCompare a b = 1) :
    ¬ collLt a b ∧ a ≠ b := by
  constructor
  · intro hc
    have := (localeCompare_neg_iff a b).2 hc
    omega
  · intro he
    have := (localeCompare_eq_zero_iff a b).2 he
    omega

theorem decLe_iff_specLe (a b : Decorated) : decLe a b = true ↔ specLe a b := by
  unfold decLe cmpDecorated specLe
  rcases localeCompare_cases a.hostKey b.hostKey with h1 | h1 | h1
  · have hc := localeCompare_neg _ _ h1
    rw [h1]
    norm_num
    exact Or.inl hc
  · have he := (localeCompare_eq_zero_iff _ _).1 h1
    rw [h1]
    norm_num
    rcases localeCompare_cases a.sortKey b.sortKey with h2 | h2 | h2
    · have hc2 := localeCompare_neg _ _ h2
      rw [h2]
      norm_num
      exact Or.inr ⟨he, Or.inl hc2⟩
    · have he2 := (localeCompare_eq_zero_iff _ _).1 h2
      rw [h2]
      norm_num
      constructor
      · intro hle
        exact Or.inr ⟨he, Or.inr ⟨he2, by omega⟩⟩
      · rintro (hc | ⟨-, hc | ⟨-, hidx⟩⟩)
        · exact absurd hc (by rw [he]; exact collLt_irrefl _)
        · exact absurd hc (by rw [he2]; exact collLt_irrefl _)
        · omega
    · have hp2 := localeCompare_pos _ _ h2
      rw [h2]
      norm_num
      refine ⟨by rw [he]; exact collLt_irrefl _, fun _ => ⟨hp2.1, fun hc => absurd hc hp2.2⟩⟩
  · have hp := localeCompare_pos _ _ h1
    rw [h1]
    norm_num
    exact ⟨hp.1, fun hc => absurd hc hp.2⟩

theorem specLe_trans {a b c : Decorated} (h1 : specLe a b) (h2 : specLe b c) :
    specLe a c := by
  unfold specLe at h1 h2 ⊢
  rcases h1 with h1 | ⟨he1, h1⟩
  · rcases h2 with h2 | ⟨he2, -⟩
    · exact Or.inl (collLt_trans h1 h2)
    · exact Or.inl (he2 ▸ h1)
  · rcases h2 with h2 | ⟨he2, h2⟩
    · exact Or.inl (he1 ▸ h2)
    · refine Or.inr ⟨he1.trans he2, ?_⟩
      rcases h1 with h1 | ⟨hk1, hi1⟩
      · rcases h2 with h2 | ⟨hk2, -⟩
        · exact Or.inl (collLt_trans h1 h2)
        · exact Or.inl (hk2 ▸ h1)
      · rcases h2 with h2 | ⟨hk2, hi2⟩
        · exact Or.inl (hk1 ▸ h2)
        · exact Or.inr ⟨hk1.trans hk2, hi1.trans hi2⟩

theorem collLt_or (a b : String) : collLt a b ∨ collLt b a ∨ a = b := by
  unfold collLt
  cases h1 : lexLtB a.data b.data
  · cases h2 : lexLtB b.data a.data
    · exact Or.inr (Or.inr (stringDataInj (lexLtB_antisymm _ _ h1 h2)))
    · exact Or.inr (Or.inl rfl)
  · exact Or.inl rfl

theorem specLe_total (a b : Decorated) : specLe a b ∨ specLe b a := by
  unfold specLe
  rcases collLt_or a.hostKey b.hostKey with h | h | h
  · exact Or.inl (Or.inl h)
  · exact Or.inr (Or.inl h)
  · rcases collLt_or a.sortKey b.sortKey with h2 | h2 | h2
    · exact Or.inl (Or.inr ⟨h, Or.inl h2⟩)
    · exact Or.inr (Or.inr ⟨h.symm, Or.inl h2⟩)
    · rcases Nat.le_total a.originalIndex b.originalIndex with h3 | h3
      · exact Or.inl (Or.inr ⟨h, Or.inr ⟨h2, h3⟩⟩)
      · exact Or.inr (Or.inr ⟨h.symm, Or.inr ⟨h2.symm, h3⟩⟩)

theorem sortDecorated_perm (l : List Decorated) : (sortDecorated l).Perm l :=
  List.perm_insertionSort decLeRel l

theorem sortDecorated_pairwise (l : List Decorated) :
    (sortDecorated l).Pairwise specLe := by
  haveI : IsTotal Decorated decLeRel := ⟨fun a b => by
    rcases specLe_total a b with h | h
    · exact Or.inl ((decLe_iff_specLe a b).2 h)
    · exact Or.inr ((decLe_iff_specLe b a).2 h)⟩
  haveI : IsTrans Decorated decLeRel := ⟨fun a b c h1 h2 =>
    (decLe_iff_specLe a c).2
      (specLe_trans ((decLe_iff_specLe a b).1 h1) ((decLe_iff_specLe b c).1 h2))⟩
  exact List.Pairwise.imp (fun h => (decLe_iff_specLe _ _).1 h)
    (List.sorted_insertionSort decLeRel l)

theorem sortDecorated_of_pairwise {l : List Decorated}
    (h : l.Pairwise specLe) : sortDecorated l = l :=
  List.Sorted.insertionSort_eq
    (List.Pairwise.imp (fun hab => (decLe_iff_specLe _ _).2 hab) h)

/-! ### Decoration lemmas -/

theorem decorateB_map_tab : ∀ (i : Nat) (ts : List Tab),
    (Background.decorateFrom i ts).map (fun d => d.tab) = ts
  | _, [] => rfl
  | i, t :: ts => by
    simp only [Background.decorateFrom, List.map_cons, decorateB_map_tab (i + 1) ts]

theorem decorateB_mem_wf : ∀ (i : Nat) (ts : List Tab),
    ∀ d ∈ Background.decorateFrom i ts,
      d.hostKey = Background.bucketKey d.tab ∧
        d.sortKey = Background.sortKeyOf d.tab
  | _, [], d, hd => by simp [Background.decorateFrom] at hd
  | i, t :: ts, d, hd => by
    simp only [Background.decorateFrom, List.mem_cons] at hd
    rcases hd with hd | hd
    · subst hd
      exact ⟨rfl, rfl⟩
    · exact decorateB_mem_wf (i + 1) ts d hd

theorem decorateB_mem_idx : ∀ (i : Nat) (ts : List Tab),
    ∀ d ∈ Background.decorateFrom i ts, i ≤ d.originalIndex
  | _, [], d, hd => by simp [Background.decorateFrom] at hd
  | i, t :: ts, d, hd => by
    simp only [Background.decorateFrom, List.mem_cons] at hd
    rcases hd with hd | hd
    · subst hd
      exact Nat.le_refl i
    · exact Nat.le_trans (Nat.le_succ i) (decorateB_mem_idx (i + 1) ts d hd)

theorem decorateB_pairwise_idx : ∀ (i : Nat) (ts : List Tab),
    (Background.decorateFrom i ts).Pairwise
      (fun a b => a.originalIndex < b.originalIndex)
  | _, [] => List.Pairwise.nil
  | i, t :: ts => by
    refine List.Pairwise.cons (fun d hd => ?_) (decorateB_pairwise_idx (i + 1) ts)
    exact Nat.lt_of_lt_of_le (Nat.lt_succ_self i) (decorateB_mem_idx (i + 1) ts d hd)

theorem decorateA_map_tab : ∀ (i : Nat) (ts : List Tab) (ds : List Decorated),
    Part000.decorateFrom i ts = some ds → ds.map (fun d => d.tab) = ts
  | _, [], ds, h => by
    simp only [Part000.decorateFrom, Option.some.injEq] at h
    subst h
    rfl
  | i, t :: ts, ds, h => by
    simp only [Part000.decorateFrom] at h
    rcases hr : Part000.resolveTabUrl t with - | u <;> rw [hr] at h
    · exact absurd h (by simp)
    · rcases hd : Part000.decorateFrom (i + 1) ts with - | ds' <;> rw [hd] at h
      · exact absurd h (by simp)
      · simp only [Option.some.injEq] at h
        subst h
        simp only [List.map_cons, decorateA_map_tab (i + 1) ts ds' hd]

theorem decorateA_mem_wf : ∀ (i : Nat) (ts : List Tab) (ds : List Decorated),
    Part000.decorateFrom i ts = some ds →
    ∀ d ∈ ds, ∃ u, Part000.resolveTabUrl d.tab = some u ∧
      d.hostKey = Part000.hostKeyOf u ∧ d.sortKey = Part000.sortKeyOf u
  | _, [], ds, h => by
    simp only [Part000.decorateFrom, Option.some.injEq] at h
    subst h
    intro d hd
    simp at hd
  | i, t :: ts, ds, h => by
    simp only [Part000.decorateFrom] at h
    rcases hr : Part000.resolveTabUrl t with - | u <;> rw [hr] at h
    · exact absurd h (by simp)
    · rcases hd : Part000.decorateFrom (i + 1) ts with - | ds' <;> rw [hd] at h
      · exact absurd h (by simp)
      · simp only [Option.some.injEq] at h
        subst h
        intro d hmem
        rcases List.mem_cons.1 hmem with hx | hx
        · subst hx
          exact ⟨u, hr, rfl, rfl⟩
        · exact decorateA_mem_wf (i + 1) ts ds' hd d hx

theorem decorateA_mem_idx : ∀ (i : Nat) (ts : List Tab) (ds : List Decorated),
    Part000.decorateFrom i ts = some ds → ∀ d ∈ ds, i ≤ d.originalIndex
  | _, [], ds, h => by
    simp only [Part000.decorateFrom, Option.some.injEq] at h
    subst h
    intro d hd
    simp at hd
  | i, t :: ts, ds, h => by
    simp only [Part000.decorateFrom] at h
    rcases hr : Part000.resolveTabUrl t with - | u <;> rw [hr] at h
    · exact absurd h (by simp)
    · rcases hd : Part000.decorateFrom (i + 1) ts with - | ds' <;> rw [hd] at h
      · exact absurd h (by simp)
      · simp only [Option.some.injEq] at h
        subst h
        intro d hmem
        rcases List.mem_cons.1 hmem with hx | hx
        · subst hx
          exact Nat.le_refl i
        · exact Nat.le_trans (Nat.le_succ i)
            (decorateA_mem_idx (i + 1) ts ds' hd d hx)

theorem decorateA_pairwise_idx : ∀ (i : Nat) (ts : List Tab) (ds : List Decorated),
    Part000.decorateFrom i ts = some ds →
    ds.Pairwise (fun a b => a.originalIndex < b.originalIndex)
  | _, [], ds, h => by
    simp only [Part000.decorateFrom, Option.some.injEq] at h
    subst h
    exact List.Pairwise.nil
  | i, t :: ts, ds, h => by
    simp only [Part000.decorateFrom] at h
    rcases hr : Part000.resolveTabUrl t with - | u <;> rw [hr] at h
    · exact absurd h (by simp)
    · rcases hd : Part000.decorateFrom (i + 1) ts with - | ds' <;> rw [hd] at h
      · exact absurd h (by simp)
      · simp only [Option.some.injEq] at h
        subst h
        refine List.Pairwise.cons (fun d hmem => ?_)
          (decorateA_pairwise_idx (i + 1) ts ds' hd)
        exact Nat.lt_of_lt_of_le (Nat.lt_succ_self i)
          (decorateA_mem_idx (i + 1) ts ds' hd d hmem)

/-! ### Reindexing lemmas (for idempotence) -/

theorem reindexFrom_map_tab : ∀ (i : Nat) (l : List Decorated),
    (reindexFrom i l).map (fun d => d.tab) = l.map (fun d => d.tab)
  | _, [] => rfl
  | i, d :: ds => by
    simp only [reindexFrom, List.map_cons, reindexFrom_map_tab (i + 1) ds]

theorem mem_reindexFrom : ∀ (i : Nat) (l : List Decorated),
    ∀ y ∈ reindexFrom i l,
      (∃ z ∈ l, y.hostKey = z.hostKey ∧ y.sortKey = z.sortKey) ∧
        i ≤ y.originalIndex
  | _, [], y, hy => by simp [reindexFrom] at hy
  | i, d :: ds, y, hy => by
    simp only [reindexFrom, List.mem_cons] at hy
    rcases hy with hy | hy
    · subst hy
      exact ⟨⟨d, List.mem_cons_self d ds, rfl, rfl⟩, Nat.le_refl i⟩
    · rcases mem_reindexFrom (i + 1) ds y hy with ⟨⟨z, hz, h1, h2⟩, h3⟩
      exact ⟨⟨z, List.mem_cons_of_mem d hz, h1, h2⟩,
        Nat.le_trans (Nat.le_succ i) h3⟩

theorem specLe_keyLe {a b : Decorated} (h : specLe a b) : keyLe a b := by
  unfold specLe at h
  unfold keyLe
  rcases h with h | ⟨he, h | ⟨hk, -⟩⟩
  · exact Or.inl h
  · exact Or.inr ⟨he, Or.inl h⟩
  · exact Or.inr ⟨he, Or.inr hk⟩

theorem reindexFrom_pairwise : ∀ (i : Nat) (l : List Decorated),
    l.Pairwise keyLe → (reindexFrom i l).Pairwise specLe
  | _, [], _ => List.Pairwise.nil
  | i, d :: ds, h => by
    rcases List.pairwise_cons.1 h with ⟨hd, ht⟩
    refine List.Pairwise.cons (fun y hy => ?_) (reindexFrom_pairwise (i + 1) ds ht)
    rcases mem_reindexFrom (i + 1) ds y hy with ⟨⟨z, hz, h1, h2⟩, h3⟩
    have hk := hd z hz
    unfold keyLe at hk
    unfold specLe
    rcases hk with hk | ⟨he, hk | hk⟩
    · exact Or.inl (by simpa [h1] using hk)
    · exact Or.inr ⟨by simpa [h1] using he, Or.inl (by simpa [h2] using hk)⟩
    · exact Or.inr ⟨by simpa [h1] using he,
        Or.inr ⟨by simpa [h2] using hk, by simp; omega⟩⟩

theorem decorateB_of_wf : ∀ (i : Nat) (l : List Decorated),
    (∀ d ∈ l, d.hostKey = Background.bucketKey d.tab ∧
      d.sortKey = Background.sortKeyOf d.tab) →
    Background.decorateFrom i (l.map (fun d => d.tab)) = reindexFrom i l
  | _, [], _ => rfl
  | i, d :: ds, hwf => by
    have hd := hwf d (List.mem_cons_self d ds)
    have ih := decorateB_of_wf (i + 1) ds
      (fun x hx => hwf x (List.mem_cons_of_mem d hx))
    simp only [List.map_cons, Background.decorateFrom, reindexFrom, ih]
    cases d
    simp_all

theorem decorateA_of_wf : ∀ (i : Nat) (l : List Decorated),
    (∀ d ∈ l, ∃ u, Part000.resolveTabUrl d.tab = some u ∧
      d.hostKey = Part000.hostKeyOf u ∧ d.sortKey = Part000.sortKeyOf u) →
    Part000.decorateFrom i (l.map (fun d => d.tab)) = some (reindexFrom i l)
  | _, [], _ => rfl
  | i, d :: ds, hwf => by
    rcases hwf d (List.mem_cons_self d ds) with ⟨u, hu, h1, h2⟩
    have ih := decorateA_of_wf (i + 1) ds
      (fun x hx => hwf x (List.mem_cons_of_mem d hx))
    simp only [List.map_cons, Part000.decorateFrom, reindexFrom, hu, ih]
    cases d
    simp_all

/-! ### Claims about the scope sorter -/

/-- C1: for every non-empty scope, in both variants each tab's sort key
is its bucket key concatenated with the resolved URL's path, query
(leading separator included) and fragment (leading separator included),
and the sorted decoration is a permutation of the input ordered by
bucket key ascending, then sort key ascending (collated), then original
index ascending, so equal-key tabs keep their original relative order
(stability). -/
theorem claim_C1 (tabs : List Tab) (_hne : tabs ≠ []) :
    ((sortDecorated (Background.decorate tabs)).Perm (Background.decorate tabs)
      ∧ (∀ d ∈ Background.decorate tabs,
          d.sortKey = d.hostKey ++ (Background.resolveTabUrl d.tab).pathname
            ++ (Background.resolveTabUrl d.tab).search
            ++ (Background.resolveTabUrl d.tab).hash)
      ∧ (sortDecorated (Background.decorate tabs)).Pairwise specLe
      ∧ (sortDecorated (Background.decorate tabs)).Pairwise
          (fun a b => a.hostKey = b.hostKey → a.sortKey = b.sortKey →
            a.originalIndex < b.originalIndex))
    ∧ ∀ ds, Part000.decorate tabs = some ds →
      ((sortDecorated ds).Perm ds
        ∧ (∀ d ∈ ds, ∃ u, Part000.resolveTabUrl d.tab = some u ∧
            d.sortKey = d.hostKey ++ u.pathname ++ u.search ++ u.hash)
        ∧ (sortDecorated ds).Pairwise specLe
        ∧ (sortDecorated ds).Pairwise
            (fun a b => a.hostKey = b.hostKey → a.sortKey = b.sortKey →
              a.originalIndex < b.originalIndex)) := by
  constructor
  · refine ⟨sortDecorated_perm _, fun d hd => ?_, sortDecorated_pairwise _, ?_⟩
    · rcases decorateB_mem_wf 0 tabs d hd with ⟨h1, h2⟩
      rw [h2, Background.sortKeyOf, ← h1]
    · have hidx : (sortDecorated (Background.decorate tabs)).Pairwise
          (fun a b => a.originalIndex ≠ b.originalIndex) := by
        refine (List.Perm.pairwise_iff (fun h => Ne.symm h)
          (sortDecorated_perm _)).2 ?_
        exact (decorateB_pairwise_idx 0 tabs).imp Nat.ne_of_lt
      exact ((sortDecorated_pairwise _).and hidx).imp
        (fun h hh hk => Nat.lt_of_le_of_ne (by
          rcases h.1 with hc | ⟨-, hc | ⟨-, hle⟩⟩
          · exact absurd hc (hh ▸ collLt_irrefl _)
          · exact absurd hc (hk ▸ collLt_irrefl _)
          · exact hle) h.2)
  · intro ds hds
    refine ⟨sortDecorated_perm _, fun d hd => ?_, sortDecorated_pairwise _, ?_⟩
    · rcases decorateA_mem_wf 0 tabs ds hds d hd with ⟨u, hu, h1, h2⟩
      exact ⟨u, hu, by rw [h2, Part000.sortKeyOf, ← h1]⟩
    · have hidx : (sortDecorated ds).Pairwise
          (fun a b => a.originalIndex ≠ b.originalIndex) := by
        refine (List.Perm.pairwise_iff (fun h => Ne.symm h)
          (sortDecorated_perm _)).2 ?_
        exact (decorateA_pairwise_idx 0 tabs ds hds).imp Nat.ne_of_lt
      exact ((sortDecorated_pairwise _).and hidx).imp
        (fun h hh hk => Nat.lt_of_le_of_ne (by
          rcases h.1 with hc | ⟨-, hc | ⟨-, hle⟩⟩
          · exact absurd hc (hh ▸ collLt_irrefl _)
          · exact absurd hc (hk ▸ collLt_irrefl _)
          · exact hle) h.2)

/-- Witness for C1 at the three-tab http scenario. -/
theorem claim_C1_witness :
    (sortDecorated (Background.decorate scenarioHttpTabs)).Pairwise specLe :=
  ((claim_C1 scenarioHttpTabs (by decide)).1).2.2.1

/-- C6: the move request a scope sort issues carries exactly the input
tab identities, as a multiset: no identity is created, destroyed or
duplicated (both variants; the `part_000` variant whenever it issues a
move at all). -/
theorem claim_C6 (tabs : List Tab) :
    (Background.sortedIds tabs).Perm (tabs.map (fun t => t.id))
    ∧ ∀ out, Part000.sortedIds tabs = some out →
        out.Perm (tabs.map (fun t => t.id)) := by
  constructor
  · have h := List.Perm.map (fun d => d.tab.id)
      (sortDecorated_perm (Background.decorate tabs))
    have h2 : (Background.decorate tabs).map (fun d => d.tab.id)
        = tabs.map (fun t => t.id) := by
      have := congrArg (List.map (fun t => t.id)) (decorateB_map_tab 0 tabs)
      simpa [List.map_map, Function.comp] using this
    exact h2 ▸ h
  · intro out hout
    unfold Part000.sortedIds at hout
    rcases hds : Part000.decorate tabs with - | ds <;> rw [hds] at hout
    · exact absurd hout (by simp)
    · simp only [Option.map_some', Option.some.injEq] at hout
      subst hout
      have h := List.Perm.map (fun d => d.tab.id) (sortDecorated_perm ds)
      have h2 : ds.map (fun d => d.tab.id) = tabs.map (fun t => t.id) := by
        have := congrArg (List.map (fun t => t.id)) (decorateA_map_tab 0 tabs ds hds)
        simpa [List.map_map, Function.comp] using this
      exact h2 ▸ h

/-- Witness for C6: the `part_000` branch at a one-tab scope. -/
theorem claim_C6_witness :
    ([2] : List Nat).Perm ([tabAboutBlank].map (fun t => t.id)) :=
  (claim_C6 [tabAboutBlank]).2 [2] (by decide)

/-- C7: the scope sort is idempotent.  Feeding the output order back to
the scope sorter reproduces it exactly: the second pass changes nothing,
in either variant. -/
theorem claim_C7 (tabs : List Tab) :
    (Background.sortedTabs (Background.sortedTabs tabs)
        = Background.sortedTabs tabs
      ∧ Background.sortedIds (Background.sortedTabs tabs)
        = Background.sortedIds tabs)
    ∧ ∀ out, Part000.sortedTabs tabs = some out →
        Part000.sortedTabs out = some out := by
  constructor
  · have hwf : ∀ d ∈ sortDecorated (Background.decorate tabs),
        d.hostKey = Background.bucketKey d.tab ∧
          d.sortKey = Background.sortKeyOf d.tab := by
      intro d hd
      exact decorateB_mem_wf 0 tabs d
        ((sortDecorated_perm (Background.decorate tabs)).mem_iff.1 hd)
    have hdec : Background.decorate (Background.sortedTabs tabs)
        = reindexFrom 0 (sortDecorated (Background.decorate tabs)) :=
      decorateB_of_wf 0 (sortDecorated (Background.decorate tabs)) hwf
    have hkey : (sortDecorated (Background.decorate tabs)).Pairwise keyLe :=
      (sortDecorated_pairwise _).imp specLe_keyLe
    have hfix : sortDecorated (reindexFrom 0
          (sortDecorated (Background.decorate tabs)))
        = reindexFrom 0 (sortDecorated (Background.decorate tabs)) :=
      sortDecorated_of_pairwise (reindexFrom_pairwise 0 _ hkey)
    constructor
    · show (sortDecorated (Background.decorate (Background.sortedTabs tabs))).map
          (fun d => d.tab) = Background.sortedTabs tabs
      rw [hdec, hfix, reindexFrom_map_tab]
      rfl
    · show (sortDecorated (Background.decorate (Background.sortedTabs tabs))).map
          (fun d => d.tab.id) = Background.sortedIds tabs
      rw [hdec, hfix]
      have := congrArg (List.map (fun t => t.id)) (reindexFrom_map_tab 0
        (sortDecorated (Background.decorate tabs)))
      simpa [List.map_map, Function.comp, Background.sortedIds] using this
  · intro out hout
    unfold Part000.sortedTabs at hout ⊢
    rcases hds : Part000.decorate tabs with - | ds <;> rw [hds] at hout
    · exact absurd hout (by simp)
    · simp only [Option.map_some', Option.some.injEq] at hout
      subst hout
      have hwf : ∀ d ∈ sortDecorated ds,
          ∃ u, Part000.resolveTabUrl d.tab = some u ∧
            d.hostKey = Part000.hostKeyOf u ∧ d.sortKey = Part000.sortKeyOf u := by
        intro d hd
        exact decorateA_mem_wf 0 tabs ds hds d
          ((sortDecorated_perm ds).mem_iff.1 hd)
      have hdec : Part000.decorate ((sortDecorated ds).map (fun d => d.tab))
          = some (reindexFrom 0 (sortDecorated ds)) :=
        decorateA_of_wf 0 (sortDecorated ds) hwf
      have hkey : (sortDecorated ds).Pairwise keyLe :=
        (sortDecorated_pairwise _).imp specLe_keyLe
      have hfix : sortDecorated (reindexFrom 0 (sortDecorated ds))
          = reindexFrom 0 (sortDecorated ds) :=
        sortDecorated_of_pairwise (reindexFrom_pairwise 0 _ hkey)
      rw [hdec]
      simp only [Option.map_some', Option.some.injEq]
      rw [hfix, reindexFrom_map_tab]

/-- Witness for C7: the `part_000` branch at a concrete two-tab scope. -/
theorem claim_C7_witness :
    Part000.sortedTabs [tabAboutBlank, tabChromeSettings]
      = some [tabAboutBlank, tabChromeSettings] :=
  (claim_C7 [tabChromeSettings, tabAboutBlank]).2
    [tabAboutBlank, tabChromeSettings] (by decide)

/-! ### Parsing lemmas -/

theorem startsWithL_iff : ∀ (s pat : List Char),
    startsWithL s pat = true ↔ ∃ r, s = pat ++ r
  | s, [] => by simp [startsWithL]
  | [], p :: ps => by simp [startsWithL]
  | c :: cs, p :: ps => by
    simp only [startsWithL, Bool.and_eq_true, decide_eq_true_eq,
      startsWithL_iff cs ps, List.cons_append]
    constructor
    · rintro ⟨rfl, r, rfl⟩
      exact ⟨r, rfl⟩
    · rintro ⟨r, h⟩
      rcases List.cons.injEq .. ▸ h with ⟨h1, h2⟩
      exact ⟨h1, r, h2⟩

theorem jsStartsWith_iff (s pat : String) :
    jsStartsWith s pat = true ↔ ∃ r, s.data = pat.data ++ r :=
  startsWithL_iff s.data pat.data

theorem takeWhile_append_concat {p : Char → Bool} :
    ∀ (l1 : List Char) (x : Char) (l2 : List Char),
      (∀ c ∈ l1, p c = true) → p x = false →
      (l1 ++ x :: l2).takeWhile p = l1
  | [], x, l2, _, hx => by simp [List.takeWhile, hx]
  | c :: l1, x, l2, hall, hx => by
    have hc := hall c (List.mem_cons_self c l1)
    simp [List.takeWhile, hc,
      takeWhile_append_concat l1 x l2
        (fun d hd => hall d (List.mem_cons_of_mem c hd)) hx]

theorem dropWhile_append_concat {p : Char → Bool} :
    ∀ (l1 : List Char) (x : Char) (l2 : List Char),
      (∀ c ∈ l1, p c = true) → p x = false →
      (l1 ++ x :: l2).dropWhile p = x :: l2
  | [], x, l2, _, hx => by simp [List.dropWhile, hx]
  | c :: l1, x, l2, hall, hx => by
    have hc := hall c (List.mem_cons_self c l1)
    simp [List.dropWhile, hc,
      dropWhile_append_concat l1 x l2
        (fun d hd => hall d (List.mem_cons_of_mem c hd)) hx]

theorem splitSchemeChars_append (c : Char) (cs tl : List Char)
    (hc : c.isAlpha = true) (hcs : ∀ x ∈ cs, isSchemeChar x = true) :
    splitSchemeChars (c :: (cs ++ ':' :: tl))
      = some ((c :: cs).map Char.toLower, tl) := by
  have h1 := takeWhile_append_concat cs ':' tl hcs (by decide)
  have h2 := dropWhile_append_concat cs ':' tl hcs (by decide)
  simp [splitSchemeChars, hc, h1, h2]

theorem parseWithAuthority_protocol (scheme r1 : List Char) (u : URLRec)
    (h : parseWithAuthority scheme r1 = some u) :
    u.protocol = ⟨scheme ++ [':']⟩ := by
  simp only [parseWithAuthority] at h
  rcases hh : parseHostChars (isSpecialScheme scheme)
      (r1.takeWhile (fun c => !endsAuthority (isSpecialScheme scheme) c))
    with - | hst <;> rw [hh] at h
  · exact absurd h (by simp)
  · simp only [Option.some.injEq] at h
    rw [← h]

theorem parseAfterScheme_protocol (scheme rest : List Char) (u : URLRec)
    (h : parseAfterScheme scheme rest = some u) :
    u.protocol = ⟨scheme ++ [':']⟩ := by
  simp only [parseAfterScheme] at h
  by_cases hs : isSpecialScheme scheme = true
  · rw [if_pos hs] at h
    exact parseWithAuthority_protocol _ _ _ h
  · rw [if_neg hs] at h
    by_cases h2 : startsWithL rest ['/', '/'] = true
    · rw [if_pos h2] at h
      exact parseWithAuthority_protocol _ _ _ h
    · rw [if_neg h2] at h
      simp only [Option.some.injEq] at h
      rw [← h]

theorem parseURL_protocol_eq (raw : String) (c : Char) (cs tl : List Char)
    (u : URLRec) (hdata : raw.data = c :: (cs ++ ':' :: tl))
    (hc : c.isAlpha = true) (hcs : ∀ x ∈ cs, isSchemeChar x = true)
    (hp : parseURL raw = some u) :
    u.protocol = ⟨(c :: cs).map Char.toLower ++ [':']⟩ := by
  unfold parseURL at hp
  rw [hdata, splitSchemeChars_append c cs tl hc hcs] at hp
  exact parseAfterScheme_protocol _ _ _ hp

theorem protocol_of_ext (raw : String) (u : URLRec)
    (hs : jsStartsWith raw "chrome-extension://" = true)
    (hp : parseURL raw = some u) : u.protocol = "chrome-extension:" := by
  rcases (jsStartsWith_iff raw _).1 hs with ⟨r, hr⟩
  have hdata : raw.data
      = 'c' :: ("hrome-extension".data ++ ':' :: ('/' :: '/' :: r)) := by
    rw [hr]; rfl
  have := parseURL_protocol_eq raw 'c' "hrome-extension".data ('/' :: '/' :: r)
    u hdata (by decide) (by decide) hp
  rw [this]; rfl

theorem protocol_of_chrome (raw : String) (u : URLRec)
    (hs : jsStartsWith raw "chrome://" = true)
    (hp : parseURL raw = some u) : u.protocol = "chrome:" := by
  rcases (jsStartsWith_iff raw _).1 hs with ⟨r, hr⟩
  have hdata : raw.data = 'c' :: ("hrome".data ++ ':' :: ('/' :: '/' :: r)) := by
    rw [hr]; rfl
  have := parseURL_protocol_eq raw 'c' "hrome".data ('/' :: '/' :: r)
    u hdata (by decide) (by decide) hp
  rw [this]; rfl

theorem protocol_of_about (raw : String) (u : URLRec)
    (hs : jsStartsWith raw "about:" = true)
    (hp : parseURL raw = some u) : u.protocol = "about:" := by
  rcases (jsStartsWith_iff raw _).1 hs with ⟨r, hr⟩
  have hdata : raw.data = 'a' :: ("bout".data ++ ':' :: r) := by
    rw [hr]; rfl
  have := parseURL_protocol_eq raw 'a' "bout".data r u hdata
    (by decide) (by decide) hp
  rw [this]; rfl

theorem protocol_of_edge (raw : String) (u : URLRec)
    (hs : jsStartsWith raw "edge://" = true)
    (hp : parseURL raw = some u) : u.protocol = "edge:" := by
  rcases (jsStartsWith_iff raw _).1 hs with ⟨r, hr⟩
  have hdata : raw.data = 'e' :: ("dge".data ++ ':' :: ('/' :: '/' :: r)) := by
    rw [hr]; rfl
  have := parseURL_protocol_eq raw 'e' "dge".data ('/' :: '/' :: r) u hdata
    (by decide) (by decide) hp
  rw [this]; rfl

theorem protocol_of_brave (raw : String) (u : URLRec)
    (hs : jsStartsWith raw "brave://" = true)
    (hp : parseURL raw = some u) : u.protocol = "brave:" := by
  rcases (jsStartsWith_iff raw _).1 hs with ⟨r, hr⟩
  have hdata : raw.data = 'b' :: ("rave".data ++ ':' :: ('/' :: '/' :: r)) := by
    rw [hr]; rfl
  have := parseURL_protocol_eq raw 'b' "rave".data ('/' :: '/' :: r) u hdata
    (by decide) (by decide) hp
  rw [this]; rfl

theorem isUnreservedByte_lt {b : Nat} (h : isUnreservedByte b = true) :
    b < 128 := by
  unfold isUnreservedByte at h
  simp only [Bool.or_eq_true, Bool.and_eq_true, decide_eq_true_eq] at h
  omega

theorem encByte_safe (b : Nat) (hb : b < 256) :
    ∀ c ∈ encByte b, c ≠ '?' ∧ c ≠ '#' := by
  unfold encByte
  by_cases h : isUnreservedByte b = true
  · rw [if_pos h]
    have h128 := isUnreservedByte_lt h
    have hall : ∀ n : Nat, n < 128 → isUnreservedByte n = true →
        Char.ofNat n ≠ '?' ∧ Char.ofNat n ≠ '#' := by decide
    intro c hc
    rcases List.mem_singleton.1 hc with rfl
    exact hall b h128 h
  · rw [if_neg h]
    have hhex : ∀ n : Nat, n < 16 →
        hexDigitChar n ≠ '?' ∧ hexDigitChar n ≠ '#' := by decide
    intro c hc
    simp only [List.mem_cons, List.not_mem_nil, or_false] at hc
    rcases hc with rfl | rfl | rfl
    · exact ⟨by decide, by decide⟩
    · exact hhex (b / 16) (by omega)
    · exact hhex (b % 16) (by omega)

theorem utf8Bytes_lt (c : Char) : ∀ b ∈ utf8BytesOfChar c, b < 256 := by
  intro b hb
  unfold utf8BytesOfChar at hb
  split at hb
  · simp only [List.mem_singleton] at hb
    omega
  · split at hb
    · simp only [List.mem_cons, List.not_mem_nil, or_false] at hb
      rcases hb with rfl | rfl <;> omega
    · split at hb
      · simp only [List.mem_cons, List.not_mem_nil, or_false] at hb
        rcases hb with rfl | rfl | rfl <;> omega
      · simp only [List.mem_cons, List.not_mem_nil, or_false] at hb
        rcases hb with rfl | rfl | rfl | rfl <;> omega

theorem encodeURIComponent_safe (s : String) :
    ∀ c ∈ (encodeURIComponent s).data, c ≠ '?' ∧ c ≠ '#' := by
  intro c hc
  have hdata : (encodeURIComponent s).data
      = s.data.flatMap (fun ch => (utf8BytesOfChar ch).flatMap encByte) := rfl
  rw [hdata] at hc
  rcases List.mem_flatMap.1 hc with ⟨ch, -, hc2⟩
  rcases List.mem_flatMap.1 hc2 with ⟨b, hb, hcb⟩
  exact encByte_safe b (utf8Bytes_lt ch b hb) c hcb

theorem parseWithAuthority_http (host E : List Char)
    (hhost : parseHostChars true host = some host)
    (hauth : ∀ c ∈ host, (!endsAuthority true c) = true)
    (hE : ∀ c ∈ E, c ≠ '?' ∧ c ≠ '#') :
    parseWithAuthority "http".data (host ++ '/' :: E)
      = some { protocol := "http:", host := ⟨host⟩,
               pathname := ⟨'/' :: E⟩, search := "", hash := "" } := by
  have hsp : isSpecialScheme "http".data = true := by decide
  simp only [parseWithAuthority, hsp]
  rw [takeWhile_append_concat host '/' E hauth (by decide),
    dropWhile_append_concat host '/' E hauth (by decide), hhost]
  have htE : List.takeWhile (fun c => c ≠ '?' && c ≠ '#') E = E :=
    List.takeWhile_eq_self_iff.2
      (fun c hc => by simp [(hE c hc).1, (hE c hc).2])
  have hdE : List.dropWhile (fun c => c ≠ '?' && c ≠ '#') E = [] :=
    List.dropWhile_eq_nil_iff.2
      (fun c hc => by simp [(hE c hc).1, (hE c hc).2])
  rw [List.takeWhile_cons, List.dropWhile_cons, htE, hdE]
  norm_num
  constructor
  · rfl
  · simp [searchOf, hashOf]

theorem parseURL_placeholder_invalid (raw : String) :
    parseURL ("http://invalid/" ++ encodeURIComponent raw)
      = some (invalidPlaceholder raw) := by
  have hsafe := encodeURIComponent_safe raw
  unfold parseURL
  have hdata : ("http://invalid/" ++ encodeURIComponent raw).data
      = 'h' :: ("ttp".data ++ ':' ::
          ('/' :: '/' :: ("invalid".data ++ '/' :: (encodeURIComponent raw).data))) := by
    rw [String.data_append]
    rfl
  rw [hdata, splitSchemeChars_append 'h' "ttp".data _ (by decide) (by decide)]
  show parseAfterScheme "http".data _ = _
  simp only [parseAfterScheme]
  rw [if_pos (by decide : isSpecialScheme "http".data = true)]
  rw [List.dropWhile_cons, if_pos (by decide), List.dropWhile_cons,
    if_pos (by decide),
    show ("invalid".data ++ '/' :: (encodeURIComponent raw).data)
        = 'i' :: ("nvalid".data ++ '/' :: (encodeURIComponent raw).data) from rfl,
    List.dropWhile_cons, if_neg (by decide)]
  exact parseWithAuthority_http "invalid".data (encodeURIComponent raw).data
    (by decide) (by decide) hsafe

theorem parseURL_placeholder_internal (raw : String) :
    parseURL ("http://internal/" ++ encodeURIComponent raw)
      = some (internalPlaceholder raw) := by
  have hsafe := encodeURIComponent_safe raw
  unfold parseURL
  have hdata : ("http://internal/" ++ encodeURIComponent raw).data
      = 'h' :: ("ttp".data ++ ':' ::
          ('/' :: '/' :: ("internal".data ++ '/' :: (encodeURIComponent raw).data))) := by
    rw [String.data_append]
    rfl
  rw [hdata, splitSchemeChars_append 'h' "ttp".data _ (by decide) (by decide)]
  show parseAfterScheme "http".data _ = _
  simp only [parseAfterScheme]
  rw [if_pos (by decide : isSpecialScheme "http".data = true)]
  rw [List.dropWhile_cons, if_pos (by decide), List.dropWhile_cons,
    if_pos (by decide),
    show ("internal".data ++ '/' :: (encodeURIComponent raw).data)
        = 'i' :: ("nternal".data ++ '/' :: (encodeURIComponent raw).data) from rfl,
    List.dropWhile_cons, if_neg (by decide)]
  exact parseWithAuthority_http "internal".data (encodeURIComponent raw).data
    (by decide) (by decide) hsafe

/-! ### Resolution lemmas -/

theorem resolveB_of_parse {t : Tab} {u : URLRec}
    (h : parseURL (rawAddress t) = some u) :
    Background.resolveTabUrl t = u := by
  simp only [Background.resolveTabUrl]
  rw [h]

theorem resolveB_of_fail {t : Tab} (h : parseURL (rawAddress t) = none) :
    Background.resolveTabUrl t = invalidPlaceholder (rawAddress t) := by
  simp only [Background.resolveTabUrl]
  rw [h, parseURL_placeholder_invalid]
  rfl

theorem resolveA_ext {t : Tab}
    (h : jsStartsWith (rawAddress t) "chrome-extension://" = true) :
    Part000.resolveTabUrl t = parseURL (rawAddress t) := by
  simp only [Part000.resolveTabUrl]
  rw [if_pos h]

theorem resolveA_internal {t : Tab}
    (hext : jsStartsWith (rawAddress t) "chrome-extension://" = false)
    (h : jsStartsWith (rawAddress t) "chrome://" = true ∨
      jsStartsWith (rawAddress t) "about:" = true ∨
      jsStartsWith (rawAddress t) "edge://" = true ∨
      jsStartsWith (rawAddress t) "brave://" = true) :
    Part000.resolveTabUrl t = some (internalPlaceholder (rawAddress t)) := by
  simp only [Part000.resolveTabUrl]
  rw [if_neg (by simp [hext]), if_pos (by rcases h with h | h | h | h <;> simp [h]),
    parseURL_placeholder_internal]
  rfl

theorem resolveA_plain {t : Tab}
    (h1 : jsStartsWith (rawAddress t) "chrome-extension://" = false)
    (h2 : jsStartsWith (rawAddress t) "chrome://" = false)
    (h3 : jsStartsWith (rawAddress t) "about:" = false)
    (h4 : jsStartsWith (rawAddress t) "edge://" = false)
    (h5 : jsStartsWith (rawAddress t) "brave://" = false) :
    Part000.resolveTabUrl t
      = match parseURL (rawAddress t) with
        | some u => some u
        | none => some (invalidPlaceholder (rawAddress t)) := by
  simp only [Part000.resolveTabUrl]
  rw [if_neg (by simp [h1]), if_neg (by simp [h2, h3, h4, h5])]
  rcases hp : parseURL (rawAddress t) with - | u <;> simp only [hp]
  · rw [parseURL_placeholder_invalid]
    rfl

theorem no_prefix_of_protocol {t : Tab} {u : URLRec}
    (hp : parseURL (rawAddress t) = some u)
    (hne1 : u.protocol ≠ "chrome:") (hne2 : u.protocol ≠ "about:")
    (hne3 : u.protocol ≠ "edge:") (hne4 : u.protocol ≠ "brave:") :
    jsStartsWith (rawAddress t) "chrome://" = false ∧
      jsStartsWith (rawAddress t) "about:" = false ∧
      jsStartsWith (rawAddress t) "edge://" = false ∧
      jsStartsWith (rawAddress t) "brave://" = false := by
  refine ⟨?_, ?_, ?_, ?_⟩
  · rcases Bool.eq_false_or_eq_true (jsStartsWith (rawAddress t) "chrome://")
      with h | h
    · exact absurd (protocol_of_chrome _ _ h hp) hne1
    · exact h
  · rcases Bool.eq_false_or_eq_true (jsStartsWith (rawAddress t) "about:")
      with h | h
    · exact absurd (protocol_of_about _ _ h hp) hne2
    · exact h
  · rcases Bool.eq_false_or_eq_true (jsStartsWith (rawAddress t) "edge://")
      with h | h
    · exact absurd (protocol_of_edge _ _ h hp) hne3
    · exact h
  · rcases Bool.eq_false_or_eq_true (jsStartsWith (rawAddress t) "brave://")
      with h | h
    · exact absurd (protocol_of_brave _ _ h hp) hne4
    · exact h

theorem resolveA_of_parse_nonint {t : Tab} {u : URLRec}
    (hp : parseURL (rawAddress t) = some u)
    (hne1 : u.protocol ≠ "chrome:") (hne2 : u.protocol ≠ "about:")
    (hne3 : u.protocol ≠ "edge:") (hne4 : u.protocol ≠ "brave:") :
    Part000.resolveTabUrl t = some u := by
  rcases no_prefix_of_protocol hp hne1 hne2 hne3 hne4 with ⟨h2, h3, h4, h5⟩
  rcases Bool.eq_false_or_eq_true
      (jsStartsWith (rawAddress t) "chrome-extension://") with h1 | h1
  · rw [resolveA_ext h1, hp]
  · rw [resolveA_plain h1 h2 h3 h4 h5, hp]

/-- C3: every tab whose effective address parses as a structured URL
with the `chrome-extension:` scheme gets, in the `part_000` classifier,
the bucket key `"ext:"` concatenated with the URL's host component (the
extension id). -/
theorem claim_C3 (t : Tab) (u : URLRec)
    (hp : parseURL (rawAddress t) = some u)
    (hx : u.protocol = "chrome-extension:") :
    Part000.bucketKey t = some ("ext:" ++ u.host) := by
  have hres : Part000.resolveTabUrl t = some u :=
    resolveA_of_parse_nonint hp (by rw [hx]; decide) (by rw [hx]; decide)
      (by rw [hx]; decide) (by rw [hx]; decide)
  unfold Part000.bucketKey
  rw [hres]
  simp [Part000.hostKeyOf, hx]

/-- Witness for C3 at a concrete extension page. -/
theorem claim_C3_witness :
    Part000.bucketKey tabExtPopup = some ("ext:" ++ "abcdefghijklmnop") :=
  claim_C3 tabExtPopup
    { protocol := "chrome-extension:", host := "abcdefghijklmnop",
      pathname := "/popup.html", search := "", hash := "" }
    (by decide) (by decide)

/-- C4: an http(s) address is bucketed, in both variants, by the URL's
host with a single leading `www.` stripped case-insensitively and the
result lowercased; the three-address scenario of the spec gets bucket
keys `example.com`, `example.com`, `other.com` and final order `/a`,
`/b`, then `other.com`. -/
theorem claim_C4 :
    (∀ (t : Tab) (u : URLRec), parseURL (rawAddress t) = some u →
      (u.protocol = "http:" ∨ u.protocol = "https:") →
      Background.bucketKey t = cleanHostOf u.host
        ∧ Part000.bucketKey t = some (cleanHostOf u.host))
    ∧ Background.bucketKey (mkTab 1 "https://www.example.com/a") = "example.com"
    ∧ Background.bucketKey (mkTab 2 "https://example.com/b") = "example.com"
    ∧ Background.bucketKey (mkTab 3 "https://other.com/x") = "other.com"
    ∧ Part000.bucketKey (mkTab 1 "https://www.example.com/a") = some "example.com"
    ∧ Part000.bucketKey (mkTab 2 "https://example.com/b") = some "example.com"
    ∧ Part000.bucketKey (mkTab 3 "https://other.com/x") = some "other.com"
    ∧ Background.sortedIds scenarioHttpTabs = [1, 2, 3]
    ∧ Part000.sortedIds scenarioHttpTabs = some [1, 2, 3] := by
  refine ⟨?_, by decide, by decide, by decide, by decide, by decide, by decide,
    by decide, by decide⟩
  intro t u hp hh
  have hB : Background.bucketKey t = cleanHostOf u.host := by
    unfold Background.bucketKey
    rw [resolveB_of_parse hp]
  have hA : Part000.resolveTabUrl t = some u := by
    rcases hh with hh | hh <;>
      exact resolveA_of_parse_nonint hp (by rw [hh]; decide) (by rw [hh]; decide)
        (by rw [hh]; decide) (by rw [hh]; decide)
  refine ⟨hB, ?_⟩
  unfold Part000.bucketKey
  rw [hA]
  rcases hh with hh | hh <;> simp [Part000.hostKeyOf, hh]

/-- Witness for C4's universally quantified part at `www.example.com`. -/
theorem claim_C4_witness :
    Background.bucketKey (mkTab 1 "https://www.example.com/a")
        = cleanHostOf "www.example.com"
      ∧ Part000.bucketKey (mkTab 1 "https://www.example.com/a")
        = some (cleanHostOf "www.example.com") :=
  claim_C4.1 (mkTab 1 "https://www.example.com/a")
    { protocol := "https:", host := "www.example.com", pathname := "/a",
      search := "", hash := "" }
    (by decide) (Or.inr (by decide))

/-- C2 counterexample: the claim's adjacency fails as soon as a third
tab of bucket "internal" sits between the two.  With `about:config` in
the scope, the sorted order is blank (2), config (3), settings (1):
`chrome://settings` and `about:blank` are not adjacent. -/
theorem claim_C2_counterexample :
    Part000.bucketKey tabChromeSettings = some "internal"
    ∧ Part000.bucketKey tabAboutBlank = some "internal"
    ∧ Part000.bucketKey tabAboutConfig = some "internal"
    ∧ Part000.sortedIds [tabChromeSettings, tabAboutBlank, tabAboutConfig]
        = some [2, 3, 1] := by
  decide

/-- C2 (amended): `chrome://settings` and `about:blank` both resolve to
bucket key "internal" (via the placeholder URL under pseudo-host
`internal`); in any sorted scope the tabs of one bucket form a single
contiguous run, so the two are adjacent whenever no other tab of the
scope resolves to bucket "internal" — in particular in the two-tab
scope, where the sorted order is blank (2) then settings (1). -/
theorem claim_C2 (l pre mid post : List Decorated) (a b : Decorated)
    (hsplit : sortDecorated l = pre ++ a :: (mid ++ b :: post))
    (hab : a.hostKey = b.hostKey) :
    Part000.bucketKey tabChromeSettings = some "internal"
    ∧ Part000.bucketKey tabAboutBlank = some "internal"
    ∧ (∀ d ∈ mid, d.hostKey = a.hostKey)
    ∧ Part000.sortedIds [tabChromeSettings, tabAboutBlank] = some [2, 1] := by
  refine ⟨by decide, by decide, ?_, by decide⟩
  intro d hd
  have hp := sortDecorated_pairwise l
  rw [hsplit] at hp
  rcases List.pairwise_append.1 hp with ⟨-, hp2, -⟩
  rcases List.pairwise_cons.1 hp2 with ⟨ha, hp3⟩
  rcases List.pairwise_append.1 hp3 with ⟨-, -, hrel⟩
  have had : specLe a d := ha d (List.mem_append_left _ hd)
  have hdb : specLe d b := hrel d hd b (List.mem_cons_self b post)
  rcases had with h1 | ⟨h1, -⟩
  · rcases hdb with h2 | ⟨h2, -⟩
    · exact absurd (collLt_trans h1 h2) (by rw [hab]; exact collLt_irrefl _)
    · exact absurd h1 (by rw [h2, ← hab]; exact collLt_irrefl _)
  · exact h1.symm

/-- Witness for C2 at the three-tab internal scope: the tab between the
two is itself of bucket "internal". -/
theorem claim_C2_witness :
    decConfig.hostKey = decBlank.hostKey :=
  (claim_C2 [decSettings, decBlank, decConfig] [] [decConfig] []
    decBlank decSettings (by decide) (by decide)).2.2.1
    decConfig (List.mem_singleton_self decConfig)

/-- C9 counterexample: `chrome-extension://[` fails URL structural
parsing, and in `part_000` the failure escapes `resolveTabUrl` (the
parse happens outside the try/catch) and aborts the whole scope sort
instead of being handled locally with the "invalid" placeholder. -/
theorem claim_C9_counterexample :
    parseURL "chrome-extension://[" = none
    ∧ Part000.resolveTabUrl tabExtMalformed = none
    ∧ Part000.sortedIds [tabExtMalformed] = none := by
  decide

/-- C9 (amended): an unparseable address is always handled locally in
`background.js` (placeholder URL, bucket "invalid").  In `part_000` the
same holds only when the address carries none of the special prefixes:
an internal-page prefix diverts it (unparsed) to bucket "internal", and
a `chrome-extension://` prefix makes resolution itself fail, so the
failure propagates out of the scope sort. -/
theorem claim_C9 (t : Tab) (hf : parseURL (rawAddress t) = none) :
    Background.resolveTabUrl t = invalidPlaceholder (rawAddress t)
    ∧ Background.bucketKey t = "invalid"
    ∧ (jsStartsWith (rawAddress t) "chrome-extension://" = false →
       jsStartsWith (rawAddress t) "chrome://" = false →
       jsStartsWith (rawAddress t) "about:" = false →
       jsStartsWith (rawAddress t) "edge://" = false →
       jsStartsWith (rawAddress t) "brave://" = false →
       Part000.resolveTabUrl t = some (invalidPlaceholder (rawAddress t))
         ∧ Part000.bucketKey t = some "invalid")
    ∧ (jsStartsWith (rawAddress t) "chrome-extension://" = false →
       jsStartsWith (rawAddress t) "chrome://" = true →
       Part000.bucketKey t = some "internal")
    ∧ (jsStartsWith (rawAddress t) "chrome-extension://" = true →
       Part000.resolveTabUrl t = none) := by
  refine ⟨resolveB_of_fail hf, ?_, ?_, ?_, ?_⟩
  · unfold Background.bucketKey
    rw [resolveB_of_fail hf]
    rfl
  · intro h1 h2 h3 h4 h5
    have hres := resolveA_plain h1 h2 h3 h4 h5
    simp only [hf] at hres
    refine ⟨hres, ?_⟩
    unfold Part000.bucketKey
    rw [hres]
    rfl
  · intro h1 h2
    have hres := resolveA_internal h1 (Or.inl h2)
    unfold Part000.bucketKey
    rw [hres]
    rfl
  · intro h1
    rw [resolveA_ext h1, hf]

/-- Witness for C9 at the unparseable address `not a url`. -/
theorem claim_C9_witness :
    Background.bucketKey tabPlain = "invalid"
      ∧ Part000.bucketKey tabPlain = some "invalid" :=
  ⟨(claim_C9 tabPlain (by decide)).2.1,
   ((claim_C9 tabPlain (by decide)).2.2.1 (by decide) (by decide) (by decide)
      (by decide) (by decide)).2⟩

/-- C10 counterexample: `chrome://[` fails URL parsing and does not
begin with `chrome-extension://`, yet the two scope sorters bucket it
differently: "internal" in `part_000`, "invalid" in `background.js`. -/
theorem claim_C10_counterexample :
    parseURL "chrome://[" = none
    ∧ jsStartsWith "chrome://[" "chrome-extension://" = false
    ∧ Part000.bucketKey tabChromeBracket = some "internal"
    ∧ Background.bucketKey tabChromeBracket = "invalid" := by
  decide

/-- C10 (amended): on every tab whose effective address does not begin
with `chrome-extension://` and either parses as http(s) or fails
parsing while matching none of the internal-page prefixes, the two
variants compute the same bucket key and the same sort key; unparseable
addresses bearing an internal-page prefix are the remaining
divergence. -/
theorem claim_C10 (t : Tab)
    (hext : jsStartsWith (rawAddress t) "chrome-extension://" = false) :
    (∀ u, parseURL (rawAddress t) = some u →
      (u.protocol = "http:" ∨ u.protocol = "https:") →
      Part000.bucketKey t = some (Background.bucketKey t)
        ∧ Part000.sortKey t = some (Background.sortKeyOf t))
    ∧ (parseURL (rawAddress t) = none →
       jsStartsWith (rawAddress t) "chrome://" = false →
       jsStartsWith (rawAddress t) "about:" = false →
       jsStartsWith (rawAddress t) "edge://" = false →
       jsStartsWith (rawAddress t) "brave://" = false →
       Part000.bucketKey t = some (Background.bucketKey t)
         ∧ Part000.sortKey t = some (Background.sortKeyOf t)) := by
  constructor
  · intro u hp hh
    have hA : Part000.resolveTabUrl t = some u := by
      rcases hh with hh | hh <;>
        exact resolveA_of_parse_nonint hp (by rw [hh]; decide)
          (by rw [hh]; decide) (by rw [hh]; decide) (by rw [hh]; decide)
    have hB := resolveB_of_parse hp
    have hkey : Part000.hostKeyOf u = cleanHostOf u.host := by
      rcases hh with hh | hh <;> simp [Part000.hostKeyOf, hh]
    constructor
    · unfold Part000.bucketKey Background.bucketKey
      rw [hA, hB]
      simp [hkey]
    · unfold Part000.sortKey Background.sortKeyOf Background.bucketKey
      rw [hA, hB]
      simp [Part000.sortKeyOf, hkey]
  · intro hf h2 h3 h4 h5
    have hres := resolveA_plain hext h2 h3 h4 h5
    simp only [hf] at hres
    have hB := resolveB_of_fail hf
    have hkey : Part000.hostKeyOf (invalidPlaceholder (rawAddress t))
        = cleanHostOf (invalidPlaceholder (rawAddress t)).host := by
      simp [Part000.hostKeyOf, invalidPlaceholder]
    constructor
    · unfold Part000.bucketKey Background.bucketKey
      rw [hres, hB]
      simp [hkey]
    · unfold Part000.sortKey Background.sortKeyOf Background.bucketKey
      rw [hres, hB]
      simp [Part000.sortKeyOf, hkey]

/-- Witness for C10 on both branches: an https address and an
unparseable address. -/
theorem claim_C10_witness :
    (Part000.bucketKey tabHttpsB = some (Background.bucketKey tabHttpsB))
      ∧ (Part000.sortKey tabPlain = some (Background.sortKeyOf tabPlain)) :=
  ⟨((claim_C10 tabHttpsB (by decide)).1
      { protocol := "https:", host := "example.com", pathname := "/b",
        search := "", hash := "" }
      (by decide) (Or.inr (by decide))).1,
   ((claim_C10 tabPlain (by decide)).2 (by decide) (by decide) (by decide)
      (by decide) (by decide)).2⟩

/-! ### Group ordering (orchestrator) -/

theorem localeCompare_eq_one {x y : String} (h : localeCompare x y = 1) :
    localeCompare y x = -1 := by
  unfold localeCompare at h ⊢
  by_cases h1 : lexLtB x.data y.data = true <;>
    by_cases h2 : lexLtB y.data x.data = true <;> simp_all

theorem localeCompare_le_total (x y : String) :
    localeCompare x y ≤ 0 ∨ localeCompare y x ≤ 0 := by
  rcases localeCompare_cases x y with h | h | h
  · exact Or.inl (by omega)
  · exact Or.inl (by omega)
  · exact Or.inr (by rw [localeCompare_eq_one h]; omega)

theorem localeCompare_le_trans {x y z : String}
    (h1 : localeCompare x y ≤ 0) (h2 : localeCompare y z ≤ 0) :
    localeCompare x z ≤ 0 := by
  rcases (localeCompare_le_zero_iff x y).1 h1 with hxy | hxy <;>
    rcases (localeCompare_le_zero_iff y z).1 h2 with hyz | hyz
  · exact (localeCompare_le_zero_iff x z).2 (Or.inl (collLt_trans hxy hyz))
  · exact (localeCompare_le_zero_iff x z).2 (Or.inl (hyz ▸ hxy))
  · exact (localeCompare_le_zero_iff x z).2 (Or.inl (hxy ▸ hyz))
  · exact (localeCompare_le_zero_iff x z).2 (Or.inr (hxy.trans hyz))

theorem collLe_of_le_zero {x y : String} (h : localeCompare x y ≤ 0) :
    collLe x y := by
  rcases (localeCompare_le_zero_iff x y).1 h with hc | hc
  · exact lexLtB_asymm _ _ hc
  · subst hc
    exact lexLtB_irrefl _

theorem groupLe_iff (a b : TabGroup) :
    Background.groupLe a b = true ↔
      localeCompare (Background.titleOrEmpty b.title)
        (Background.titleOrEmpty a.title) ≤ 0 := by
  unfold Background.groupLe
  exact decide_eq_true_iff

/-- C5: the orchestrator processes tab groups in descending collated
title order (an absent title counting as the empty string): the
processing order is a permutation of the groups in which each later
group's title is collation-≤ the earlier one's; concretely, in the
two-group window the "Work" tab ends left of the "Shopping" tab. -/
theorem claim_C5 :
    (∀ gs : List TabGroup, (Background.sortGroups gs).Perm gs
      ∧ (Background.sortGroups gs).Pairwise
          (fun a b => collLe (Background.titleOrEmpty b.title)
            (Background.titleOrEmpty a.title)))
    ∧ (Background.sortAllTabs wGroups).1.tabs.map (fun t => t.id) = [2, 1] := by
  refine ⟨fun gs => ⟨List.perm_insertionSort Background.groupLeRel gs, ?_⟩,
    by decide⟩
  haveI : IsTotal TabGroup Background.groupLeRel := ⟨fun a b => by
    rcases localeCompare_le_total (Background.titleOrEmpty b.title)
        (Background.titleOrEmpty a.title) with h | h
    · exact Or.inl ((groupLe_iff a b).2 h)
    · exact Or.inr ((groupLe_iff b a).2 h)⟩
  haveI : IsTrans TabGroup Background.groupLeRel := ⟨fun a b c h1 h2 =>
    (groupLe_iff a c).2 (localeCompare_le_trans
      ((groupLe_iff b c).1 h2) ((groupLe_iff a b).1 h1))⟩
  exact List.Pairwise.imp
    (fun h => collLe_of_le_zero ((groupLe_iff _ _).1 h))
    (List.sorted_insertionSort Background.groupLeRel gs)

/-! ### Window-state invariants (pinned preservation) -/

theorem sortedIdsB_perm (tabs : List Tab) :
    (Background.sortedIds tabs).Perm (tabs.map (fun t => t.id)) := by
  have h := List.Perm.map (fun d => d.tab.id)
    (sortDecorated_perm (Background.decorate tabs))
  have h2 : (Background.decorate tabs).map (fun d => d.tab.id)
      = tabs.map (fun t => t.id) := by
    have := congrArg (List.map (fun t => t.id)) (decorateB_map_tab 0 tabs)
    simpa [List.map_map, Function.comp] using this
  exact h2 ▸ h

theorem mem_idPinPairs {ts : List Tab} {x : Nat} {b : Bool} :
    (x, b) ∈ idPinPairs ts ↔ ∃ t ∈ ts, t.id = x ∧ t.pinned = b := by
  unfold idPinPairs
  simp only [List.mem_map, Prod.mk.injEq]

theorem pinnedAt_iff_pairs {ts : List Tab} {x : Nat} :
    pinnedAt ts x ↔ (x, true) ∈ idPinPairs ts := by
  rw [mem_idPinPairs]
  unfold pinnedAt
  rfl

theorem idPinPairs_withIndicesFrom : ∀ (i : Nat) (ts : List Tab),
    idPinPairs (withIndicesFrom i ts) = idPinPairs ts
  | _, [] => rfl
  | i, t :: ts =>
    congrArg (List.cons (t.id, t.pinned)) (idPinPairs_withIndicesFrom (i + 1) ts)

theorem idsOf_withIndicesFrom : ∀ (i : Nat) (ts : List Tab),
    idsOf (withIndicesFrom i ts) = idsOf ts
  | _, [] => rfl
  | i, t :: ts =>
    congrArg (List.cons t.id) (idsOf_withIndicesFrom (i + 1) ts)

theorem pinnedAt_withIndices {ts : List Tab} {x : Nat} :
    pinnedAt (withIndices ts) x ↔ pinnedAt ts x := by
  rw [pinnedAt_iff_pairs, pinnedAt_iff_pairs, withIndices,
    idPinPairs_withIndicesFrom]

theorem nodup_ids_eq {ts : List Tab} (hnd : (idsOf ts).Nodup)
    {a b : Tab} (ha : a ∈ ts) (hb : b ∈ ts) (hid : a.id = b.id) : a = b :=
  List.inj_on_of_nodup_map hnd ha hb hid

theorem moveTabs_mem_iff {ts : List Tab} {ids : List Nat} {idx : Nat}
    (hnd : (idsOf ts).Nodup) {t : Tab} :
    t ∈ moveTabs ts ids idx ↔ t ∈ ts := by
  unfold moveTabs
  constructor
  · intro h
    rcases List.mem_append.1 h with h | h
    · rcases List.mem_append.1 h with h | h
      · exact List.mem_of_mem_filter (List.mem_of_mem_take h)
      · rcases List.mem_filterMap.1 h with ⟨i, -, hf⟩
        exact List.mem_of_find?_eq_some hf
    · exact List.mem_of_mem_filter (List.mem_of_mem_drop h)
  · intro h
    by_cases hc : ids.contains t.id = true
    · have hfind : ts.find? (fun x => x.id = t.id) = some t := by
        rcases hfs : ts.find? (fun x => x.id = t.id) with - | y
        · have hcon := List.find?_eq_none.1 hfs t h
          simp at hcon
        · have hy := List.find?_some hfs
          simp only [decide_eq_true_eq] at hy
          rw [hfs, nodup_ids_eq hnd (List.mem_of_find?_eq_some hfs) h hy]
      have hmoved : t ∈ ids.filterMap (fun i => ts.find? (fun x => x.id = i)) :=
        List.mem_filterMap.2 ⟨t.id, by simpa using hc, hfind⟩
      exact List.mem_append.2 (Or.inl (List.mem_append.2 (Or.inr hmoved)))
    · have hrest : t ∈ ts.filter (fun x => !ids.contains x.id) :=
        List.mem_filter.2 ⟨h, by simp_all⟩
      rcases List.mem_append.1
          ((List.take_append_drop idx
              (ts.filter (fun (x : Tab) => !ids.contains x.id))).symm
            ▸ hrest) with h2 | h2
      · exact List.mem_append.2 (Or.inl (List.mem_append.2 (Or.inl h2)))
      · exact List.mem_append.2 (Or.inr h2)

theorem pinnedAt_moveTabs {ts : List Tab} {ids : List Nat} {idx : Nat}
    (hnd : (idsOf ts).Nodup) {x : Nat} :
    pinnedAt (moveTabs ts ids idx) x ↔ pinnedAt ts x := by
  unfold pinnedAt
  constructor
  · rintro ⟨t, ht, h1, h2⟩
    exact ⟨t, (moveTabs_mem_iff hnd).1 ht, h1, h2⟩
  · rintro ⟨t, ht, h1, h2⟩
    exact ⟨t, (moveTabs_mem_iff hnd).2 ht, h1, h2⟩

theorem moveTabs_perm (ts : List Tab) (ids : List Nat) (idx : Nat) :
    (moveTabs ts ids idx).Perm
      (ids.filterMap (fun i => ts.find? (fun t => t.id = i))
        ++ ts.filter (fun t => !ids.contains t.id)) := by
  unfold moveTabs
  have h1 : ((ts.filter (fun (t : Tab) => !ids.contains t.id)).take idx
        ++ ids.filterMap (fun i => ts.find? (fun t => t.id = i))).Perm
      (ids.filterMap (fun i => ts.find? (fun t => t.id = i))
        ++ (ts.filter (fun (t : Tab) => !ids.contains t.id)).take idx) :=
    List.perm_append_comm
  have h2 := h1.append_right
    ((ts.filter (fun (t : Tab) => !ids.contains t.id)).drop idx)
  refine h2.trans ?_
  rw [List.append_assoc, List.take_append_drop]

theorem idsOf_moved_sublist (ts : List Tab) : ∀ ids : List Nat,
    List.Sublist
      (idsOf (ids.filterMap (fun i => ts.find? (fun t => t.id = i)))) ids
  | [] => List.nil_sublist []
  | i :: ids => by
    simp only [List.filterMap_cons]
    rcases hf : ts.find? (fun t => t.id = i) with - | y <;> simp only [hf]
    · exact List.Sublist.cons i (idsOf_moved_sublist ts ids)
    · have hy : y.id = i := by simpa using List.find?_some hf
      simp only [idsOf, List.map_cons, hy]
      exact List.Sublist.cons₂ i (idsOf_moved_sublist ts ids)

theorem idsOf_moveTabs_nodup {ts : List Tab} {ids : List Nat} {idx : Nat}
    (hnd : (idsOf ts).Nodup) (hids : ids.Nodup) :
    (idsOf (moveTabs ts ids idx)).Nodup := by
  have hperm := (moveTabs_perm ts ids idx).map (fun t => t.id)
  refine hperm.nodup_iff.2 ?_
  rw [List.map_append]
  refine List.Nodup.append ?_ ?_ ?_
  · exact List.Nodup.sublist (idsOf_moved_sublist ts ids) hids
  · exact List.Nodup.sublist ((List.filter_sublist ts).map _) hnd
  · intro a ha hb
    have ha2 : a ∈ ids :=
      (idsOf_moved_sublist ts ids).subset ha
    rcases List.mem_map.1 hb with ⟨t, ht, rfl⟩
    rcases List.mem_filter.1 ht with ⟨-, hcon⟩
    have hnot : t.id ∉ ids := by simpa using hcon
    exact hnot ha2

theorem idPinPairs_map {f : Tab → Tab}
    (hf : ∀ t, (f t).id = t.id ∧ (f t).pinned = t.pinned) :
    ∀ ts : List Tab, idPinPairs (ts.map f) = idPinPairs ts
  | [] => rfl
  | t :: ts => by
    simp only [List.map_cons, idPinPairs]
    rw [(hf t).1, (hf t).2]
    exact congrArg (List.cons _) (idPinPairs_map hf ts)

theorem idsOf_map {f : Tab → Tab} (hf : ∀ t, (f t).id = t.id) :
    ∀ ts : List Tab, idsOf (ts.map f) = idsOf ts
  | [] => rfl
  | t :: ts => by
    simp only [List.map_cons, idsOf]
    rw [hf t]
    exact congrArg (List.cons _) (idsOf_map hf ts)

theorem pinnedAt_setGroup {ts : List Tab} {gid : Int} {ids : List Nat}
    {x : Nat} : pinnedAt (setGroup ts gid ids) x ↔ pinnedAt ts x := by
  rw [pinnedAt_iff_pairs, pinnedAt_iff_pairs]
  unfold setGroup
  rw [idPinPairs_map (fun t => by split <;> exact ⟨rfl, rfl⟩) ts]

theorem idsOf_setGroup {ts : List Tab} {gid : Int} {ids : List Nat} :
    idsOf (setGroup ts gid ids) = idsOf ts :=
  idsOf_map (fun t => by split <;> rfl) ts

theorem idsOf_setPinned {ts : List Tab} {i : Nat} {v : Bool} :
    idsOf (setPinned ts i v) = idsOf ts :=
  idsOf_map (fun t => by split <;> rfl) ts

theorem pinnedAt_setPinned_self {ts : List Tab} {i : Nat}
    (hp : pinnedAt ts i) (x : Nat) :
    pinnedAt (setPinned ts i true) x ↔ pinnedAt ts x := by
  unfold setPinned pinnedAt
  constructor
  · rintro ⟨t', ht', hid, hpin⟩
    rcases List.mem_map.1 ht' with ⟨t, ht, rfl⟩
    by_cases h : t.id = i
    · rw [if_pos h] at hid
      have hx : x = i := by rw [← hid, h]
      exact hx ▸ hp
    · rw [if_neg h] at hid hpin
      exact ⟨t, ht, hid, hpin⟩
  · rintro ⟨t, ht, hid, hpin⟩
    refine ⟨if t.id = i then { t with pinned := true } else t,
      List.mem_map_of_mem _ ht, ?_, ?_⟩
    · split <;> simpa using hid
    · split <;> simp [hpin]

theorem pinAll_inv : ∀ (ids : List Nat) (ts : List Tab),
    (∀ i ∈ ids, pinnedAt ts i) →
    (∀ x, pinnedAt (Background.pinAll ts ids) x ↔ pinnedAt ts x)
      ∧ idsOf (Background.pinAll ts ids) = idsOf ts
  | [], _, _ => ⟨fun _ => Iff.rfl, rfl⟩
  | i :: ids, ts, h => by
    have hp := h i (List.mem_cons_self i ids)
    have hstep := pinnedAt_setPinned_self hp
    rcases pinAll_inv ids (setPinned ts i true)
        (fun j hj => (hstep j).2 (h j (List.mem_cons_of_mem i hj))) with ⟨ih1, ih2⟩
    refine ⟨fun x => ?_, ?_⟩
    · exact (ih1 x).trans (hstep x)
    · exact ih2.trans idsOf_setPinned

theorem sortTabsScope_inv (w tabs : List Tab) (start : Nat) (gid : Int)
    (hnd : (idsOf w).Nodup) (hids : (tabs.map (fun t => t.id)).Nodup) :
    (∀ x, pinnedAt (Background.sortTabsScope w tabs start gid) x ↔ pinnedAt w x)
      ∧ (idsOf (Background.sortTabsScope w tabs start gid)).Nodup := by
  have hsort : (Background.sortedIds tabs).Nodup :=
    (sortedIdsB_perm tabs).nodup_iff.2 hids
  simp only [Background.sortTabsScope]
  split
  · exact ⟨fun _ => Iff.rfl, hnd⟩
  · split
    · refine ⟨fun x => ?_, ?_⟩
      · exact pinnedAt_setGroup.trans (pinnedAt_moveTabs hnd)
      · rw [idsOf_setGroup]
        exact idsOf_moveTabs_nodup hnd hsort
    · exact ⟨fun x => pinnedAt_moveTabs hnd, idsOf_moveTabs_nodup hnd hsort⟩

theorem groupMove_inv (ts : List Tab) (gid : Int) (idx : Nat)
    (hnd : (idsOf ts).Nodup) :
    (∀ x, pinnedAt (groupMove ts gid idx) x ↔ pinnedAt ts x)
      ∧ (idsOf (groupMove ts gid idx)).Nodup := by
  unfold groupMove
  have hids : ((ts.filter (fun t => t.groupId == gid)).map
      (fun t => t.id)).Nodup :=
    List.Nodup.sublist ((List.filter_sublist ts).map _) hnd
  exact ⟨fun x => pinnedAt_moveTabs hnd, idsOf_moveTabs_nodup hnd hids⟩

theorem idsOf_filterIndexed_nodup {ts : List Tab} {p : Tab → Bool}
    (hnd : (idsOf ts).Nodup) :
    (((withIndices ts).filter p).map (fun t => t.id)).Nodup := by
  have hsub : List.Sublist
      (((withIndices ts).filter p).map (fun t => t.id))
      ((withIndices ts).map (fun t => t.id)) :=
    (List.filter_sublist _).map _
  have heq : (withIndices ts).map (fun t => t.id) = idsOf ts :=
    idsOf_withIndicesFrom 0 ts
  exact List.Nodup.sublist (heq ▸ hsub) hnd

theorem groupStep_inv (acc : List Tab × Nat) (g : TabGroup)
    (hnd : (idsOf acc.1).Nodup) :
    (∀ x, pinnedAt (Background.groupStep acc g).1 x ↔ pinnedAt acc.1 x)
      ∧ (idsOf (Background.groupStep acc g).1).Nodup := by
  rcases groupMove_inv acc.1 g.id acc.2 hnd with ⟨hm1, hm2⟩
  simp only [Background.groupStep]
  split
  · exact ⟨hm1, hm2⟩
  · rcases sortTabsScope_inv (groupMove acc.1 g.id acc.2) _ _ _ hm2
      (idsOf_filterIndexed_nodup hm2) with ⟨hs1, hs2⟩
    exact ⟨fun x => (hs1 x).trans (hm1 x), hs2⟩

theorem foldl_groupStep_inv : ∀ (gs : List TabGroup) (acc : List Tab × Nat),
    (idsOf acc.1).Nodup →
    (∀ x, pinnedAt ((gs.foldl Background.groupStep acc).1) x ↔ pinnedAt acc.1 x)
      ∧ (idsOf ((gs.foldl Background.groupStep acc).1)).Nodup
  | [], _, hnd => ⟨fun _ => Iff.rfl, hnd⟩
  | g :: gs, acc, hnd => by
    rcases groupStep_inv acc g hnd with ⟨h1, h2⟩
    rcases foldl_groupStep_inv gs (Background.groupStep acc g) h2 with ⟨h3, h4⟩
    exact ⟨fun x => (h3 x).trans (h1 x), h4⟩

theorem sortAllTabsRest_inv (groups : List TabGroup) (acc : List Tab × Nat)
    (hnd : (idsOf acc.1).Nodup) :
    ∀ x, pinnedAt (Background.sortAllTabsRest groups acc) x ↔ pinnedAt acc.1 x := by
  intro x
  rcases foldl_groupStep_inv (Background.sortGroups groups) acc hnd with ⟨h1, h2⟩
  simp only [Background.sortAllTabsRest]
  split
  · exact h1 x
  · rcases sortTabsScope_inv
        ((List.foldl Background.groupStep acc (Background.sortGroups groups)).1)
        _ _ _ h2 (idsOf_filterIndexed_nodup h2) with ⟨hs1, -⟩
    exact (hs1 x).trans (h1 x)

/-- C8: pinned tabs stay pinned.  When the pinned scope is non-empty the
orchestrator issues a `pinned := true` update for every pinned tab; every
pin update it issues targets an initially pinned tab and only re-asserts
the flag; and a tab identity is pinned in the final window state exactly
when it was pinned initially (no tab is silently unpinned, no unpinned
tab is ever pinned). -/
theorem claim_C8 (w : WindowState) (hnd : (idsOf w.tabs).Nodup) :
    (∀ t ∈ w.tabs, t.pinned = true →
      (t.id, true) ∈ (Background.sortAllTabs w).2)
    ∧ (∀ p ∈ (Background.sortAllTabs w).2, p.2 = true ∧ pinnedAt w.tabs p.1)
    ∧ (∀ tabId : Nat,
        pinnedAt w.tabs tabId ↔ pinnedAt (Background.sortAllTabs w).1.tabs tabId) := by
  have hpairs : idPinPairs (withIndices w.tabs) = idPinPairs w.tabs :=
    idPinPairs_withIndicesFrom 0 w.tabs
  have hpins : (Background.sortAllTabs w).2
      = ((withIndices w.tabs).filter (fun t => t.pinned)).map
          (fun t => (t.id, true)) := by
    simp only [Background.sortAllTabs]
    rcases hpt : (withIndices w.tabs).filter (fun t => t.pinned)
      with - | ⟨t0, rest⟩ <;> simp only [hpt]
    all_goals rfl
  refine ⟨?_, ?_, ?_⟩
  · intro t ht hp
    have hmem : ((t.id, true) : Nat × Bool) ∈ idPinPairs (withIndices w.tabs) := by
      rw [hpairs]
      exact mem_idPinPairs.2 ⟨t, ht, rfl, hp⟩
    rcases mem_idPinPairs.1 hmem with ⟨t', ht', hid, hpin⟩
    have hfil : t' ∈ (withIndices w.tabs).filter (fun t => t.pinned) :=
      List.mem_filter.2 ⟨ht', by simp [hpin]⟩
    rw [hpins]
    exact List.mem_map.2 ⟨t', hfil, by rw [hid]⟩
  · intro p hp
    rw [hpins] at hp
    rcases List.mem_map.1 hp with ⟨t', ht', rfl⟩
    rcases List.mem_filter.1 ht' with ⟨hmem, hpin⟩
    refine ⟨rfl, ?_⟩
    rw [pinnedAt_iff_pairs, ← hpairs]
    exact mem_idPinPairs.2 ⟨t', hmem, rfl, by simpa using hpin⟩
  · intro tabId
    simp only [Background.sortAllTabs]
    rcases hpt : (withIndices w.tabs).filter (fun t => t.pinned)
      with - | ⟨t0, rest⟩ <;> simp only [hpt]
    · exact (sortAllTabsRest_inv w.groups (w.tabs, (0 : Nat)) hnd tabId).symm
    · have hids : ((t0 :: rest).map (fun t => t.id)).Nodup := by
        have := idsOf_filterIndexed_nodup (p := fun t => t.pinned) hnd
        rw [hpt] at this
        exact this
      rcases sortTabsScope_inv w.tabs (t0 :: rest) 0 t0.groupId hnd hids
        with ⟨hs1, hs2⟩
      have hpin_ids : ∀ i ∈ (t0 :: rest).map (fun t => t.id),
          pinnedAt (Background.sortTabsScope w.tabs (t0 :: rest) 0 t0.groupId) i := by
        intro i hi
        rcases List.mem_map.1 hi with ⟨t', ht', rfl⟩
        have ht'' : t' ∈ (withIndices w.tabs).filter (fun t => t.pinned) := by
          rw [hpt]
          exact ht'
        rcases List.mem_filter.1 ht'' with ⟨hmem, hpin⟩
        refine (hs1 t'.id).2 ?_
        rw [pinnedAt_iff_pairs, ← hpairs]
        exact mem_idPinPairs.2 ⟨t', hmem, rfl, by simpa using hpin⟩
      rcases pinAll_inv ((t0 :: rest).map (fun t => t.id))
          (Background.sortTabsScope w.tabs (t0 :: rest) 0 t0.groupId) hpin_ids
        with ⟨hp1, hp2⟩
      have hnd1 : (idsOf (Background.pinAll
          (Background.sortTabsScope w.tabs (t0 :: rest) 0 t0.groupId)
          ((t0 :: rest).map (fun t => t.id)))).Nodup := by
        rw [hp2]
        exact hs2
      have hrest := sortAllTabsRest_inv w.groups
        (Background.pinAll
          (Background.sortTabsScope w.tabs (t0 :: rest) 0 t0.groupId)
          ((t0 :: rest).map (fun t => t.id)), (t0 :: rest).length) hnd1 tabId
      exact ((hrest.trans (hp1 tabId)).trans (hs1 tabId)).symm

/-- Witness for C8 at the two-pinned-tab window. -/
theorem claim_C8_witness :
    (2, true) ∈ (Background.sortAllTabs wPinned).2
      ∧ (pinnedAt wPinned.tabs 2
          ↔ pinnedAt (Background.sortAllTabs wPinned).1.tabs 2) :=
  ⟨(claim_C8 wPinned (by decide)).1
      { id := 2, url := "https://a.com/", pendingUrl := none, index := 1,
        pinned := true, groupId := -1 }
      (by decide) rfl,
   (claim_C8 wPinned (by decide)).2.2 2⟩
